import Mathlib

/-!
Verification development for the krakel task-graph application.

The embedding models the two algorithmic source modules:
  * the layout engine (`calculateSubtreeHeight`, `positionSubtree`,
    `calculateLayout`, `getDescendantIds`), and
  * the zustand graph store (`addNode`, `deleteNodes`, `moveNode`,
    `canMoveNode`, undo/redo history, pinning, ...).

Modelling conventions:
  * JavaScript numbers are modelled by `ℚ` (all arithmetic performed by the
    layout engine — sums, differences, halving — is exact on IEEE doubles for
    these magnitudes, and `ℚ` is executable and decidable).
  * Node `level` and `slot` are modelled by `Int` (the TypeScript annotations
    `0 | 1 | 2` are erased at runtime; `moveNode` computes intermediate values
    outside that range before clamping, and slot arithmetic uses `-1`).
  * The recursive descendant/height traversals of the source carry no visited
    set and only terminate on forests; they are embedded with an explicit
    fuel parameter, instantiated with `edges.length + 1` (one more than the
    longest simple path).  The fuel-stability theorems for claim C9 show this
    totalisation agrees with the source recursion on acyclic edge sets.
  * The undo/redo stacks hold `JSON.stringify` snapshots in the source; the
    serialisation round-trip is modelled structurally, so the stacks hold
    `Snapshot` values.
  * `nanoid()` calls are modelled by explicit fresh-identifier parameters.
  * Fire-and-forget UI timers (`setTimeout` resetting `isAutoFormatting`,
    the `nodeToCure` signal) only sequence animation flags; the synchronous
    state transition is modelled, including the deferred `applyAutoLayout`
    scheduled by `loadFromJSON` (exposed separately as `loadFromJSONSettled`).
-/

/-- 2-D position of a node (JavaScript `{x, y}` with number fields). -/
structure Pos where
  x : ℚ
  y : ℚ
deriving DecidableEq, Repr

/-- Payload of a task node: `data: { label, level, slot, completed? }`. -/
structure NodeData where
  label : String
  level : Int
  slot : Int
  completed : Option Bool := none
deriving DecidableEq, Repr

/-- A task node (`TaskNode extends Node` in the source).  React Flow base
fields that no modelled operation reads (width, selected, ...) are omitted. -/
structure TaskNode where
  id : String
  ntype : String
  position : Pos
  data : NodeData
deriving DecidableEq, Repr

/-- Inline edge style `{ stroke, strokeWidth }`. -/
structure EdgeStyle where
  stroke : String
  strokeWidth : ℚ
deriving DecidableEq, Repr

/-- A directed edge of the graph (React Flow `Edge`). -/
structure GEdge where
  id : String
  source : String
  target : String
  etype : String
  animated : Bool
  style : Option EdgeStyle
  targetHandle : Option String := none
deriving DecidableEq, Repr

/-- Modelled from the spec: the theme module `../theme/colors` is not among
the provided sources; only the string constant `colors.edge` is used, and no
claim depends on its value. -/
def colorsEdge : String := "edge"

/-- The default edge style `{ stroke: colors.edge, strokeWidth: 2.5 }`. -/
def defaultEdgeStyle : EdgeStyle := ⟨colorsEdge, 5/2⟩

/-- JavaScript truthiness of an optional string (`undefined`, `null` and the
empty string are falsy). -/
def strTruthy : Option String → Bool
  | none => false
  | some s => s ≠ ""

/-- Children ids of a node: `edges.filter(e => e.source === id).map(e => e.target)`. -/
def childIds (edges : List GEdge) (nodeId : String) : List String :=
  (edges.filter (fun e => e.source == nodeId)).map (fun e => e.target)

/-- Child nodes of a node:
`edges.filter(...).map(e => e.target).map(id => nodes.find(...)).filter(Boolean)`. -/
def childrenOf (nodes : List TaskNode) (edges : List GEdge) (nodeId : String) :
    List TaskNode :=
  (childIds edges nodeId).filterMap (fun i => nodes.find? (fun n => n.id == i))

/-- Number of lines of a label: `text.split('\n').length`.  JavaScript
`split` with a one-character separator returns one field more than the number
of separator occurrences, so the length is counted directly over the
characters (structurally, so concrete layouts evaluate inside the kernel). -/
def countLines (text : String) : Nat :=
  text.data.foldl (fun acc c => if c = Char.ofNat 10 then acc + 1 else acc) 1

/-- `Math.max` on rational values, written out with the decidable order on ℚ
so that concrete layouts evaluate inside the kernel. -/
def qmax (a b : ℚ) : ℚ := if a ≤ b then b else a

/-- Estimated own height of a node:
`Math.max(60, lines.length * 24 + 40)` (line height 24, minimum 60). -/
def ownHeight (node : TaskNode) : ℚ :=
  qmax 60 ((countLines node.data.label : ℚ) * 24 + 40)

/-- Left fold sum, matching `reduce((sum, h) => sum + h, 0)`. -/
def qsum (l : List ℚ) : ℚ := l.foldl (· + ·) 0

/-- Fueled embedding of `calculateSubtreeHeight` (layout engine).  The source
recursion carries no visited set; the fuel argument makes it total, and the
C9 stability theorem shows the result is fuel-independent on acyclic inputs. -/
def calculateSubtreeHeightF (fuel : Nat) (nodes : List TaskNode)
    (edges : List GEdge) (nodeSpacing : ℚ) (nodeId : String) : ℚ :=
  match fuel with
  | 0 => 100
  | fuel + 1 =>
    match nodes.find? (fun n => n.id == nodeId) with
    | none => 100
    | some node =>
      let children := childrenOf nodes edges nodeId
      if children.isEmpty then ownHeight node
      else
        let hs := children.map
          (fun c => calculateSubtreeHeightF fuel nodes edges nodeSpacing c.id)
        let total := qsum hs + ((children.length : ℚ) - 1) * nodeSpacing
        qmax (ownHeight node) total

/-- The canonical totalisation of `calculateSubtreeHeight`, with fuel one more
than the number of edges (longer simple paths do not exist). -/
def calculateSubtreeHeight (nodes : List TaskNode) (edges : List GEdge)
    (nodeSpacing : ℚ) (nodeId : String) : ℚ :=
  calculateSubtreeHeightF (edges.length + 1) nodes edges nodeSpacing nodeId

/-- Insert an element into a sorted list before the first element it compares
less-or-equal to (keeps insertion order among equal keys). -/
def sinsert (le : TaskNode → TaskNode → Bool) (a : TaskNode) :
    List TaskNode → List TaskNode
  | [] => [a]
  | b :: l => if le a b then a :: b :: l else b :: sinsert le a l

/-- Stable insertion sort.  For the total comparators used here this computes
the same list as JavaScript `Array.prototype.sort` (which is stable); a
structural definition is used so that concrete layouts evaluate by `decide`. -/
def stableSortBy (le : TaskNode → TaskNode → Bool) : List TaskNode → List TaskNode
  | [] => []
  | a :: l => sinsert le a (stableSortBy le l)

/-- Stable ascending sort by slot: `sort((a, b) => a.data.slot - b.data.slot)`. -/
def sortBySlot (l : List TaskNode) : List TaskNode :=
  stableSortBy (fun a b => decide (a.data.slot ≤ b.data.slot)) l

/-- Stable ascending sort by y position: `sort((a, b) => a.position.y - b.position.y)`. -/
def sortByY (l : List TaskNode) : List TaskNode :=
  stableSortBy (fun a b => decide (a.position.y ≤ b.position.y)) l

/-- The `positioned` map of the layout engine (`Map<string, TaskNode>`),
modelled as an association list; keys are only ever inserted when absent. -/
abbrev PosMap := List (String × TaskNode)

/-- Map membership test (`positioned.has`). -/
def pmHas (m : PosMap) (k : String) : Bool := m.any (fun p => p.1 == k)

/-- Map lookup (`positioned.get`). -/
def pmGet (m : PosMap) (k : String) : Option TaskNode :=
  (m.find? (fun p => p.1 == k)).map (fun p => p.2)

/-- Map insertion (`positioned.set`); only called on absent keys. -/
def pmSet (m : PosMap) (k : String) (v : TaskNode) : PosMap := (k, v) :: m

/-- The `children.forEach` loop of `positionSubtree`: each child is positioned
at `x + levelSpacing`, centred at `currentY + childHeight / 2`, and `currentY`
advances by `childHeight + nodeSpacing`; `rec` is the recursive call into the
child subtree (one fuel level down). -/
def positionChildren (rec : String → ℚ → ℚ → PosMap → PosMap)
    (nodes : List TaskNode) (edges : List GEdge)
    (levelSpacing nodeSpacing x : ℚ) : List TaskNode → ℚ → PosMap → PosMap
  | [], _, positioned => positioned
  | c :: rest, currentY, positioned =>
    let h := calculateSubtreeHeight nodes edges nodeSpacing c.id
    let m := rec c.id (x + levelSpacing) (currentY + h / 2) positioned
    positionChildren rec nodes edges levelSpacing nodeSpacing x rest
      (currentY + h + nodeSpacing) m

/-- Fueled embedding of `positionSubtree` (layout engine): position `nodeId`
at `(x, centerY)`, then stack its children vertically at `x + levelSpacing`,
sorted by slot, each centred in its subtree-height band. -/
def positionSubtreeF (fuel : Nat) (nodes : List TaskNode) (edges : List GEdge)
    (levelSpacing nodeSpacing : ℚ) (nodeId : String) (x centerY : ℚ)
    (positioned : PosMap) : PosMap :=
  match fuel with
  | 0 => positioned
  | fuel + 1 =>
    match nodes.find? (fun n => n.id == nodeId) with
    | none => positioned
    | some node =>
      if pmHas positioned nodeId then positioned
      else
        let positioned1 := pmSet positioned nodeId { node with position := ⟨x, centerY⟩ }
        let children := childrenOf nodes edges nodeId
        if children.isEmpty then positioned1
        else
          let sorted := sortBySlot children
          let hs := sorted.map (fun c => calculateSubtreeHeight nodes edges nodeSpacing c.id)
          let totalHeight := qsum hs + ((sorted.length : ℚ) - 1) * nodeSpacing
          positionChildren
            (fun nid2 x2 cy2 m2 =>
              positionSubtreeF fuel nodes edges levelSpacing nodeSpacing nid2 x2 cy2 m2)
            nodes edges levelSpacing nodeSpacing x sorted
            (centerY - totalHeight / 2) positioned1

/-- The canonical totalisation of `positionSubtree`. -/
def positionSubtree (nodes : List TaskNode) (edges : List GEdge)
    (levelSpacing nodeSpacing : ℚ) (nodeId : String) (x centerY : ℚ)
    (positioned : PosMap) : PosMap :=
  positionSubtreeF (edges.length + 1) nodes edges levelSpacing nodeSpacing
    nodeId x centerY positioned

/-- Fueled embedding of `getDescendantIds` (layout engine) whose body is
shared verbatim by the local `getDescendants` helper of `canMoveNode` and
`moveNode` in the store:
`[...children, ...children.flatMap(childId => getDescendantIds(childId, edges))]`. -/
def getDescendantsF (fuel : Nat) (edges : List GEdge) (nodeId : String) :
    List String :=
  match fuel with
  | 0 => []
  | fuel + 1 =>
    let children := childIds edges nodeId
    children ++ children.flatMap (fun c => getDescendantsF fuel edges c)

/-- The canonical totalisation of `getDescendantIds` / `getDescendants`. -/
def getDescendantIds (edges : List GEdge) (nodeId : String) : List String :=
  getDescendantsF (edges.length + 1) edges nodeId

/-- Options record of the layout engine (`LayoutConfig`). -/
structure LayoutConfig where
  levelSpacing : Option ℚ := none
  nodeSpacing : Option ℚ := none
  preserveRootPosition : Bool := false
  preserveRootXOnly : Bool := false
  originalNodes : Option (List TaskNode) := none
  preserveRootId : Option String := none
  useOriginalPositions : Bool := false
  preserveParentId : Option String := none
deriving Repr

/-- Translate a node by an offset, leaving every other field unchanged. -/
def applyOffset (dx dy : ℚ) (n : TaskNode) : TaskNode :=
  { n with position := ⟨n.position.x + dx, n.position.y + dy⟩ }

/-- The `rootNodes.forEach` loop of `calculateLayout`: stack each root's
subtree vertically with double spacing, seeding the root X from the original
snapshot when `useOriginalPositions` is set. -/
def positionRoots (nodes : List TaskNode) (edges : List GEdge)
    (config : LayoutConfig) (levelSpacing nodeSpacing : ℚ)
    (roots : List TaskNode) (currentY : ℚ) (m : PosMap) : PosMap :=
  match roots with
  | [] => m
  | root :: rest =>
    let h := calculateSubtreeHeight nodes edges nodeSpacing root.id
    let rootCenterY := currentY + h / 2
    let rootX : ℚ :=
      if config.useOriginalPositions && config.originalNodes.isSome then
        match (config.originalNodes.getD []).find? (fun n => n.id == root.id) with
        | some originalRoot => originalRoot.position.x
        | none => 0
      else 0
    let m1 := positionSubtree nodes edges levelSpacing nodeSpacing root.id
      rootX rootCenterY m
    positionRoots nodes edges config levelSpacing nodeSpacing rest
      (currentY + h + nodeSpacing * 2) m1

/-- The `positioned` map computed by `calculateLayout` before the
position-preservation passes: every root subtree laid out from a blank map. -/
def layoutPositioned (nodes : List TaskNode) (edges : List GEdge)
    (config : LayoutConfig) : PosMap :=
  let levelSpacing := config.levelSpacing.getD 340
  let nodeSpacing := config.nodeSpacing.getD 20
  let rootNodes := sortBySlot (nodes.filter (fun n => n.data.level == 0))
  let rootHeights := rootNodes.map
    (fun r => calculateSubtreeHeight nodes edges nodeSpacing r.id)
  let totalHeight := qsum rootHeights + ((rootNodes.length : ℚ) - 1) * nodeSpacing * 2
  positionRoots nodes edges config levelSpacing nodeSpacing rootNodes
    (-totalHeight / 2) []

/-- The `preserveParentId` override: translate one node and its whole
descendant subtree so the node regains its exact original position.  The
source duplicates this block twice (inside and after the root-preservation
branch); both call sites share this definition. -/
def parentPreservePass (config : LayoutConfig) (edges : List GEdge)
    (lnodes : List TaskNode) : List TaskNode :=
  if strTruthy config.preserveParentId && config.originalNodes.isSome then
    let pid := config.preserveParentId.getD ""
    let orig := config.originalNodes.getD []
    match lnodes.find? (fun n => n.id == pid), orig.find? (fun n => n.id == pid) with
    | some parentNode, some originalParent =>
      let dx := originalParent.position.x - parentNode.position.x
      let dy := originalParent.position.y - parentNode.position.y
      let parentDescendants := pid :: getDescendantIds edges pid
      lnodes.map (fun n =>
        if parentDescendants.contains n.id then applyOffset dx dy n else n)
    | _, _ => lnodes
  else lnodes

/-- Insert a freshly added node id into the first preserved root subtree that
contains its parent (the `for ... break` loop over `rootSubtrees.entries()`). -/
def addToFirstSubtree (subs : List (String × List String)) (src nid : String) :
    List (String × List String) :=
  match subs with
  | [] => []
  | (r, ds) :: rest =>
    if ds.contains src then (r, nid :: ds) :: rest
    else (r, ds) :: addToFirstSubtree rest src nid

/-- First preserved root subtree containing a node id (the `for ... return`
loop applying per-subtree offsets). -/
def firstSubtreeOwner (subs : List (String × List String)) (nid : String) :
    Option String :=
  match subs with
  | [] => none
  | (r, ds) :: rest => if ds.contains nid then some r else firstSubtreeOwner rest nid

/-- Offset recorded for a preserved root (the source indexes `rootOffsets`
with a non-null assertion; the key is present by construction). -/
def offsetsLookup (offs : List (String × (ℚ × ℚ))) (k : String) : ℚ × ℚ :=
  ((offs.find? (fun p => p.1 == k)).map (fun p => p.2)).getD (0, 0)

/-- Embedding of `calculateLayout` (layout engine): fresh subtree layout for
every level-0 root, then the optional root-position and parent-position
preservation passes. -/
def calculateLayout (nodes : List TaskNode) (edges : List GEdge)
    (config : LayoutConfig) : List TaskNode :=
  let rootNodes := sortBySlot (nodes.filter (fun n => n.data.level == 0))
  if rootNodes.isEmpty then nodes
  else
    let positioned := layoutPositioned nodes edges config
    let layoutedNodes := nodes.map (fun n => (pmGet positioned n.id).getD n)
    if config.preserveRootPosition && config.originalNodes.isSome &&
        decide (0 < rootNodes.length) then
      let orig := config.originalNodes.getD []
      let originalRootIds := (orig.filter (fun n => n.data.level == 0)).map (fun n => n.id)
      let rootsToPreserve :=
        if strTruthy config.preserveRootId then
          rootNodes.filter (fun root =>
            root.id == config.preserveRootId.getD "" && originalRootIds.contains root.id)
        else rootNodes.filter (fun root => originalRootIds.contains root.id)
      if rootsToPreserve.isEmpty then parentPreservePass config edges layoutedNodes
      else
        let rootOffsets : List (String × (ℚ × ℚ)) := rootsToPreserve.filterMap (fun root =>
          match orig.find? (fun n => n.id == root.id),
              layoutedNodes.find? (fun n => n.id == root.id) with
          | some originalRoot, some layoutedRoot =>
            some (root.id, (originalRoot.position.x - layoutedRoot.position.x,
              if config.preserveRootXOnly then 0
              else originalRoot.position.y - layoutedRoot.position.y))
          | _, _ => none)
        if rootOffsets.isEmpty then parentPreservePass config edges layoutedNodes
        else
          let rootSubtrees : List (String × List String) :=
            rootsToPreserve.filterMap (fun root =>
              if rootOffsets.any (fun p => p.1 == root.id) then
                some (root.id, root.id :: getDescendantIds edges root.id)
              else none)
          let originalNodeIds := orig.map (fun n => n.id)
          let newNodes := layoutedNodes.filter (fun n => !(originalNodeIds.contains n.id))
          let rootSubtrees2 := newNodes.foldl (fun subs newNode =>
            match edges.find? (fun e => e.target == newNode.id) with
            | some parentEdge => addToFirstSubtree subs parentEdge.source newNode.id
            | none => subs) rootSubtrees
          let resultNodes := layoutedNodes.map (fun node =>
            match firstSubtreeOwner rootSubtrees2 node.id with
            | some rootId =>
              let off := offsetsLookup rootOffsets rootId
              applyOffset off.1 off.2 node
            | none => node)
          parentPreservePass config edges resultNodes
    else parentPreservePass config edges layoutedNodes

/-- The persisted graph snapshot `{ nodes, edges, pinnedNodeIds, batchTitle }`,
the unit of persistence and of undo/redo. -/
structure Snapshot where
  nodes : List TaskNode
  edges : List GEdge
  pinnedNodeIds : List String
  batchTitle : String
deriving DecidableEq, Repr

/-- The zustand store state (`GraphState`).  The undo/redo stacks hold
structural snapshots in place of their `JSON.stringify` serialisations. -/
structure GraphState where
  nodes : List TaskNode
  edges : List GEdge
  pinnedNodeIds : List String
  batchTitle : String
  isDragging : Bool
  isAutoFormatting : Bool
  editingNodeId : Option String
  nodeToCure : Option String
  undoStack : List Snapshot
  redoStack : List Snapshot
deriving DecidableEq, Repr

/-- The snapshot of the current state, as serialised by `saveStateSnapshot`,
`undo` and `redo`. -/
def snap (s : GraphState) : Snapshot :=
  ⟨s.nodes, s.edges, s.pinnedNodeIds, s.batchTitle⟩

/-- Append to a history stack, then `shift()` the oldest entry out if the
length exceeds 5. -/
def capPush (stack : List Snapshot) (x : Snapshot) : List Snapshot :=
  let stack1 := stack ++ [x]
  if stack1.length > 5 then stack1.tail else stack1

/-- Embedding of `saveStateSnapshot`: push the current snapshot onto the
undo stack (bounded depth 5) and clear the redo stack. -/
def saveStateSnapshot (s : GraphState) : GraphState :=
  { s with undoStack := capPush s.undoStack (snap s), redoStack := [] }

/-- Restoration of `previousState.batchTitle || 'Current Batch'`: JavaScript
replaces a falsy (empty) restored title by the default.  The companion
`previousState.pinnedNodeIds || []` is the identity on lists and is not
modelled separately. -/
def restoreTitle (t : String) : String :=
  if t = "" then "Current Batch" else t

/-- Embedding of `undo`: no-op on an empty undo stack, otherwise push the
current snapshot onto the redo stack (bounded) and restore the top of the
undo stack. -/
def undo (s : GraphState) : GraphState :=
  match s.undoStack.getLast? with
  | none => s
  | some prev =>
    { s with
      nodes := prev.nodes
      edges := prev.edges
      pinnedNodeIds := prev.pinnedNodeIds
      batchTitle := restoreTitle prev.batchTitle
      undoStack := s.undoStack.dropLast
      redoStack := capPush s.redoStack (snap s) }

/-- Embedding of `redo`, the mirror of `undo`. -/
def redo (s : GraphState) : GraphState :=
  match s.redoStack.getLast? with
  | none => s
  | some next =>
    { s with
      nodes := next.nodes
      edges := next.edges
      pinnedNodeIds := next.pinnedNodeIds
      batchTitle := restoreTitle next.batchTitle
      undoStack := capPush s.undoStack (snap s)
      redoStack := s.redoStack.dropLast }

/-- Embedding of `canUndo`. -/
def canUndo (s : GraphState) : Bool := decide (0 < s.undoStack.length)

/-- Embedding of `canRedo`. -/
def canRedo (s : GraphState) : Bool := decide (0 < s.redoStack.length)

/-- A freshly created edge `{ id: nanoid(), source, target, type: 'default',
animated: false, style: { stroke: colors.edge, strokeWidth: 2.5 } }`. -/
def mkNewEdge (eid src tgt : String) : GEdge :=
  { id := eid, source := src, target := tgt, etype := "default",
    animated := false, style := some defaultEdgeStyle }

/-- Embedding of `addNode(parentId?, level = 0)`.  The two `nanoid()` calls
are passed in as `newNodeId` and `newEdgeId`.  The `alert` shown before
unpinning a parent is a UI side effect with no state content. -/
def addNode (parentId : Option String) (level : Int)
    (newNodeId newEdgeId : String) (s0 : GraphState) : GraphState :=
  let s := saveStateSnapshot s0
  let nodes := s.nodes
  let edges := s.edges
  let pinnedNodeIds := s.pinnedNodeIds
  let nodesAtLevel := nodes.filter (fun n => n.data.level == level)
  let newSlot : Int := nodesAtLevel.length
  let s :=
    if strTruthy parentId && pinnedNodeIds.contains (parentId.getD "") then
      match nodes.find? (fun n => n.id == parentId.getD "") with
      | some _ =>
        { s with pinnedNodeIds := pinnedNodeIds.filter (fun i => i ≠ parentId.getD "") }
      | none => s
    else s
  let newNode : TaskNode :=
    { id := newNodeId, ntype := "editableNode", position := ⟨0, 0⟩,
      data := { label := "New Task", level := level, slot := newSlot } }
  let newNodes := nodes ++ [newNode]
  let newEdges :=
    if strTruthy parentId then edges ++ [mkNewEdge newEdgeId (parentId.getD "") newNodeId]
    else edges
  let nodesWithUpdatedSlots := newNodes.map (fun node =>
    let nodesAtLevel2 := newNodes.filter (fun n => n.data.level == node.data.level)
    if node.id == newNodeId then
      { node with data := { node.data with slot := (nodesAtLevel2.length : Int) - 1 } }
    else
      let existingNodes := nodesAtLevel2.filter (fun n => n.id != newNodeId)
      let sortedByPosition := sortByY existingNodes
      match sortedByPosition.findIdx? (fun n => n.id == node.id) with
      | some i => { node with data := { node.data with slot := (i : Int) } }
      | none => node)
  let layoutedNodes := calculateLayout nodesWithUpdatedSlots newEdges
    { preserveRootPosition := true, preserveRootXOnly := true,
      originalNodes := some nodes, preserveRootId := none,
      useOriginalPositions := true,
      preserveParentId := if strTruthy parentId then parentId else none }
  { s with isAutoFormatting := true, nodes := layoutedNodes, edges := newEdges }

/-- Embedding of `updateNodeLabel`. -/
def updateNodeLabel (nodeId label : String) (s0 : GraphState) : GraphState :=
  let s := saveStateSnapshot s0
  { s with nodes := s.nodes.map (fun node =>
      if node.id == nodeId then
        { node with data := { node.data with label := label } }
      else node) }

/-- Embedding of `toggleNodeCompleted` (`!node.data.completed` treats an
absent flag as false). -/
def toggleNodeCompleted (nodeId : String) (s0 : GraphState) : GraphState :=
  let s := saveStateSnapshot s0
  { s with nodes := s.nodes.map (fun node =>
      if node.id == nodeId then
        { node with data :=
          { node.data with completed := some (!(node.data.completed.getD false)) } }
      else node) }

/-- Fueled embedding of the local `findDescendants` helper of `deleteNodes`:
`[id, ...children.flatMap(findDescendants)]`. -/
def findDescendantsF (fuel : Nat) (edges : List GEdge) (nodeId : String) :
    List String :=
  match fuel with
  | 0 => []
  | fuel + 1 =>
    nodeId :: (childIds edges nodeId).flatMap (fun c => findDescendantsF fuel edges c)

/-- The canonical totalisation of `findDescendants`. -/
def findDescendants (edges : List GEdge) (nodeId : String) : List String :=
  findDescendantsF (edges.length + 1) edges nodeId

/-- Embedding of `deleteNodes`: remove each requested node with all its
descendants (collected into a set in the source; list membership here) and
every edge touching a removed id. -/
def deleteNodes (nodeIds : List String) (s0 : GraphState) : GraphState :=
  let s := saveStateSnapshot s0
  let nodes := s.nodes
  let edges := s.edges
  let allNodesToDelete := nodeIds.flatMap (fun i => findDescendants edges i)
  { s with
    nodes := nodes.filter (fun n => !(allNodesToDelete.contains n.id))
    edges := edges.filter (fun e =>
      !(allNodesToDelete.contains e.source) && !(allNodesToDelete.contains e.target)) }

/-- Embedding of `deleteNode`, the singleton case of `deleteNodes`. -/
def deleteNode (nodeId : String) (s0 : GraphState) : GraphState :=
  deleteNodes [nodeId] s0

/-- Embedding of `swapNodeSlots`: exchange slot values with whichever
same-level node currently holds the target slot. -/
def swapNodeSlots (nodeId : String) (targetSlot : Int) (s0 : GraphState) :
    GraphState :=
  let s := saveStateSnapshot s0
  let nodes := s.nodes
  match nodes.find? (fun n => n.id == nodeId) with
  | none => s
  | some node =>
    let level := node.data.level
    let currentSlot := node.data.slot
    if currentSlot == targetSlot then s
    else
      let targetNode := nodes.find? (fun n =>
        n.data.level == level && n.data.slot == targetSlot && n.id != nodeId)
      let updatedNodes := nodes.map (fun n =>
        if n.id == nodeId then { n with data := { n.data with slot := targetSlot } }
        else
          match targetNode with
          | some t =>
            if n.id == t.id then { n with data := { n.data with slot := currentSlot } }
            else n
          | none => n)
      { s with nodes := updatedNodes }

/-- The slot-recomputation pass shared by `applyAutoLayout`: per level, sort
by current Y position (stable) and renumber slots top to bottom. -/
def updateSlotsByY (nodes : List TaskNode) : List TaskNode :=
  nodes.map (fun node =>
    let nodesAtLevel := nodes.filter (fun n => n.data.level == node.data.level)
    let sortedByPosition := sortByY nodesAtLevel
    match sortedByPosition.findIdx? (fun n => n.id == node.id) with
    | some i => { node with data := { node.data with slot := (i : Int) } }
    | none => node)

/-- Embedding of `applyAutoLayout`: re-derive slots from Y order, then run
the layout engine with no position preservation. -/
def applyAutoLayout (s0 : GraphState) : GraphState :=
  let s := saveStateSnapshot s0
  let layoutedNodes := calculateLayout (updateSlotsByY s.nodes) s.edges {}
  { s with isAutoFormatting := true, nodes := layoutedNodes }

/-- Embedding of `pinNode`. -/
def pinNode (nodeId : String) (s0 : GraphState) : GraphState :=
  let s := saveStateSnapshot s0
  if s.pinnedNodeIds.contains nodeId then s
  else { s with pinnedNodeIds := s.pinnedNodeIds ++ [nodeId] }

/-- Embedding of `unpinNode`. -/
def unpinNode (nodeId : String) (s0 : GraphState) : GraphState :=
  let s := saveStateSnapshot s0
  { s with pinnedNodeIds := s.pinnedNodeIds.filter (fun i => i ≠ nodeId) }

/-- Embedding of `unpinAll`. -/
def unpinAll (s0 : GraphState) : GraphState :=
  let s := saveStateSnapshot s0
  { s with pinnedNodeIds := [] }

/-- The two `splice` calls of `reorderPinnedNodes` for in-range indices.  An
out-of-range `fromIndex` is modelled as the identity (the source would splice
an `undefined` hole into the id list, which a string list cannot hold; no
claim exercises that path, and the history behaviour is unaffected). -/
def reorderPinned (l : List String) (fromIndex toIndex : Nat) : List String :=
  match l[fromIndex]? with
  | none => l
  | some moved =>
    let removed := l.take fromIndex ++ l.drop (fromIndex + 1)
    removed.take toIndex ++ moved :: removed.drop toIndex

/-- Embedding of `reorderPinnedNodes`. -/
def reorderPinnedNodes (fromIndex toIndex : Nat) (s0 : GraphState) : GraphState :=
  let s := saveStateSnapshot s0
  { s with pinnedNodeIds := reorderPinned s.pinnedNodeIds fromIndex toIndex }

/-- Embedding of `toggleAllPinnedCompleted`: if every pinned node is
completed, clear all; otherwise set all (an absent flag counts as false). -/
def toggleAllPinnedCompleted (s0 : GraphState) : GraphState :=
  let s := saveStateSnapshot s0
  let pinnedNodes := s.nodes.filter (fun n => s.pinnedNodeIds.contains n.id)
  let allCompleted := pinnedNodes.all (fun n => n.data.completed.getD false)
  { s with nodes := s.nodes.map (fun node =>
      if s.pinnedNodeIds.contains node.id then
        { node with data := { node.data with completed := some (!allCompleted) } }
      else node) }

/-- Embedding of `setBatchTitle`. -/
def setBatchTitle (title : String) (s0 : GraphState) : GraphState :=
  let s := saveStateSnapshot s0
  { s with batchTitle := title }

/-- Embedding of `loadFromJSON` on well-formed input (the `JSON.parse` of a
well-formed snapshot text is modelled structurally; the destructuring
defaults for absent `pinnedNodeIds`/`batchTitle` are the parsed fields of
`input`): replace the snapshot fields and clear both history stacks. -/
def loadFromJSON (input : Snapshot) (s : GraphState) : GraphState :=
  { s with
    nodes := input.nodes
    edges := input.edges
    pinnedNodeIds := input.pinnedNodeIds
    batchTitle := input.batchTitle
    undoStack := []
    redoStack := [] }

/-- The state after `loadFromJSON` once its zero-delay `setTimeout` has run
the scheduled automatic `applyAutoLayout` pass. -/
def loadFromJSONSettled (input : Snapshot) (s : GraphState) : GraphState :=
  applyAutoLayout (loadFromJSON input s)

/-- The local `getDescendants` helper of `canMoveNode` and `moveNode` (whose
body coincides with `getDescendantIds` of the layout engine). -/
def getDescendants (edges : List GEdge) (nodeId : String) : List String :=
  getDescendantIds edges nodeId

/-- Embedding of `canMoveNode(nodeId, targetParentId)`: reject moves into the
node's own subtree, reject any move whose relabelling `level + levelDiff + 1`
would leave [0,2] for the node, a descendant, or a descendant's child, and
otherwise accept exactly the listed target/level topologies. -/
def canMoveNode (s : GraphState) (nodeId targetParentId : String) : Bool :=
  let nodes := s.nodes
  let edges := s.edges
  match nodes.find? (fun n => n.id == nodeId),
      nodes.find? (fun n => n.id == targetParentId) with
  | some node, some targetParent =>
    let descendants := getDescendants edges nodeId
    if descendants.contains targetParentId || nodeId == targetParentId then false
    else
      let targetLevel := targetParent.data.level
      let levelDiff := targetLevel - node.data.level
      let allNodesToMove :=
        node :: descendants.filterMap (fun i => nodes.find? (fun n => n.id == i))
      let boundsOk := allNodesToMove.all (fun nodeToMove =>
        let newLevel := nodeToMove.data.level + levelDiff + 1
        if newLevel < 0 || newLevel > 2 then false
        else
          (childIds edges nodeToMove.id).all (fun childId =>
            match nodes.find? (fun n => n.id == childId) with
            | some child =>
              let childNewLevel := child.data.level + levelDiff + 1
              !(childNewLevel < 0 || childNewLevel > 2)
            | none => true))
      if !boundsOk then false
      else
        let hasChildren := edges.any (fun e => e.source == nodeId)
        if targetLevel == node.data.level - 1 then true
        else if node.data.level == 1 && targetLevel == 1 then true
        else if node.data.level == 0 && targetLevel == 0 then
          (childIds edges nodeId).all (fun childId =>
            match nodes.find? (fun n => n.id == childId) with
            | some child => child.data.level ≤ 1
            | none => false)
        else if node.data.level == 0 && !hasChildren && targetLevel == 1 then true
        else if node.data.level == 2 && targetLevel == 0 then true
        else false
  | _, _ => false

/-- The clamp `Math.max(0, Math.min(2, v))` used by `moveNode`. -/
def clamp02 (v : Int) : Int := max 0 (min 2 v)

/-- Largest slot among a list, `-1` when empty
(`slots.length > 0 ? Math.max(...slots) : -1`). -/
def maxSlotOr (l : List Int) : Int :=
  match l with
  | [] => -1
  | x :: xs => xs.foldl max x

/-- Embedding of `moveNode(nodeId, newParentId)`: detach the old incoming
edge, relabel the moved subtree by `levelDiff + 1` clamped to [0,2], attach a
new edge when the moved node ends above level 0, append the moved node after
the new parent's other children, then re-layout with root preservation.  The
fresh `nanoid()` edge id is passed as `newEdgeId`. -/
def moveNode (nodeId newParentId newEdgeId : String) (s0 : GraphState) :
    GraphState :=
  let s := saveStateSnapshot s0
  let nodes := s.nodes
  let edges := s.edges
  match nodes.find? (fun n => n.id == nodeId),
      nodes.find? (fun n => n.id == newParentId) with
  | some node, some newParent =>
    let descendants := getDescendants edges nodeId
    let allNodeIdsToMove := nodeId :: descendants
    let targetLevel := newParent.data.level
    let levelDiff := targetLevel - node.data.level
    let newEdges := edges.filter (fun e => e.target != nodeId)
    let updatedNodes := nodes.map (fun n =>
      if allNodeIdsToMove.contains n.id then
        { n with data := { n.data with level := clamp02 (n.data.level + levelDiff + 1) } }
      else n)
    let newEdges :=
      match updatedNodes.find? (fun n => n.id == nodeId) with
      | some movedNode =>
        if movedNode.data.level > 0 then
          newEdges ++
            [{ mkNewEdge newEdgeId newParentId nodeId with targetHandle := some "target" }]
        else newEdges
      | none => newEdges
    let newParentChildren :=
      (((newEdges.filter (fun e => e.source == newParentId && e.target != nodeId)).map
        (fun e => e.target)).filter (fun i => !(allNodeIdsToMove.contains i)))
    let existingChildrenSlots :=
      (newParentChildren.map (fun i =>
        match updatedNodes.find? (fun n => n.id == i) with
        | some n => n.data.slot
        | none => -1)).filter (fun slot => slot ≥ 0)
    let maxSlot := maxSlotOr existingChildrenSlots
    let nodesWithUpdatedSlots := updatedNodes.map (fun n =>
      if n.id == nodeId then { n with data := { n.data with slot := maxSlot + 1 } }
      else n)
    let layoutedNodes := calculateLayout nodesWithUpdatedSlots newEdges
      { preserveRootPosition := true, preserveRootXOnly := true,
        originalNodes := some nodes, preserveRootId := none,
        useOriginalPositions := true }
    { s with isAutoFormatting := true, nodes := layoutedNodes, edges := newEdges }
  | _, _ => s

/-- The snapshot-saving mutating operations of the store, with every
`nanoid()` result made an explicit parameter.  (`deselectAllNodes`,
`setNodes`, `setEdges` and the transient-flag setters do not save history
snapshots and are not mutating operations in the sense of the spec.) -/
inductive Op where
  | addNode (parentId : Option String) (level : Int) (newNodeId newEdgeId : String)
  | updateNodeLabel (nodeId label : String)
  | toggleNodeCompleted (nodeId : String)
  | deleteNode (nodeId : String)
  | deleteNodes (nodeIds : List String)
  | swapNodeSlots (nodeId : String) (targetSlot : Int)
  | applyAutoLayout
  | pinNode (nodeId : String)
  | unpinNode (nodeId : String)
  | unpinAll
  | reorderPinnedNodes (fromIndex toIndex : Nat)
  | toggleAllPinnedCompleted
  | setBatchTitle (title : String)
  | moveNode (nodeId newParentId newEdgeId : String)
deriving DecidableEq, Repr

/-- Dispatch a mutating operation to its embedding. -/
def applyOp : Op → GraphState → GraphState
  | .addNode parentId level newNodeId newEdgeId => addNode parentId level newNodeId newEdgeId
  | .updateNodeLabel nodeId label => updateNodeLabel nodeId label
  | .toggleNodeCompleted nodeId => toggleNodeCompleted nodeId
  | .deleteNode nodeId => deleteNode nodeId
  | .deleteNodes nodeIds => deleteNodes nodeIds
  | .swapNodeSlots nodeId targetSlot => swapNodeSlots nodeId targetSlot
  | .applyAutoLayout => applyAutoLayout
  | .pinNode nodeId => pinNode nodeId
  | .unpinNode nodeId => unpinNode nodeId
  | .unpinAll => unpinAll
  | .reorderPinnedNodes fromIndex toIndex => reorderPinnedNodes fromIndex toIndex
  | .toggleAllPinnedCompleted => toggleAllPinnedCompleted
  | .setBatchTitle title => setBatchTitle title
  | .moveNode nodeId newParentId newEdgeId => moveNode nodeId newParentId newEdgeId

/-- Apply a sequence of mutating operations in order. -/
def applyOps (ops : List Op) (s : GraphState) : GraphState :=
  ops.foldl (fun t o => applyOp o t) s

/-- One directed step along the edge list. -/
def estep (edges : List GEdge) (a b : String) : Prop :=
  ∃ e ∈ edges, e.source = a ∧ e.target = b

/-- Acyclicity of the edge set: no node is reachable from itself by a
nonempty chain of edges. -/
def Acyclic (edges : List GEdge) : Prop :=
  ∀ x, ¬ Relation.TransGen (estep edges) x x

/-- Acyclicity of the part of the edge set reachable from a start node. -/
def AcyclicFrom (edges : List GEdge) (a : String) : Prop :=
  ∀ x, Relation.ReflTransGen (estep edges) a x →
    ¬ Relation.TransGen (estep edges) x x

theorem mem_childIds_iff {edges : List GEdge} {a b : String} :
    b ∈ childIds edges a ↔ estep edges a b := by
  simp only [childIds, List.mem_map, List.mem_filter, beq_iff_eq, estep]
  constructor
  · rintro ⟨e, ⟨he, hs⟩, ht⟩
    exact ⟨e, he, hs, ht⟩
  · rintro ⟨e, he, hs, ht⟩
    exact ⟨e, ⟨he, hs⟩, ht⟩

theorem acyclicFrom_of_acyclic {edges : List GEdge} (h : Acyclic edges)
    (a : String) : AcyclicFrom edges a :=
  fun x _ => h x

/-- Every step's endpoint is a recorded edge target. -/
theorem estep_target_mem {edges : List GEdge} {a b : String}
    (h : estep edges a b) : b ∈ edges.map (fun e => e.target) := by
  rcases h with ⟨e, he, _, ht⟩
  exact List.mem_map.mpr ⟨e, he, ht⟩

/-- Chains of steps recorded as the list of visited nodes after the start. -/
inductive RPath (r : String → String → Prop) : String → String → List String → Prop
  | nil (a : String) : RPath r a a []
  | cons {a b c : String} {l : List String} (hab : r a b) (hp : RPath r b c l) :
      RPath r a c (b :: l)

theorem rpath_nil_eq {r : String → String → Prop} {a b : String}
    (h : RPath r a b []) : a = b := by
  cases h
  rfl

theorem rpath_append {r : String → String → Prop} {a b c : String}
    {l1 l2 : List String} (h1 : RPath r a b l1) (h2 : RPath r b c l2) :
    RPath r a c (l1 ++ l2) := by
  induction h1 with
  | nil _ => simpa using h2
  | cons hab _ ih => exact RPath.cons hab (ih h2)

theorem rpath_split {r : String → String → Prop} {a c : String}
    {l1 l2 : List String} (h : RPath r a c (l1 ++ l2)) :
    ∃ b, RPath r a b l1 ∧ RPath r b c l2 := by
  induction l1 generalizing a with
  | nil => exact ⟨a, RPath.nil a, by simpa using h⟩
  | cons x l1 ih =>
    cases h with
    | cons hab hp =>
      obtain ⟨b, hb1, hb2⟩ := ih hp
      exact ⟨b, RPath.cons hab hb1, hb2⟩

theorem transGen_of_rpath {r : String → String → Prop} {a b : String}
    {l : List String} (h : RPath r a b l) (hne : l ≠ []) :
    Relation.TransGen r a b := by
  induction h with
  | nil _ => exact absurd rfl hne
  | cons hab hp ih =>
    cases hp with
    | nil _ => exact Relation.TransGen.single hab
    | cons hbc hq =>
      exact Relation.TransGen.head hab (ih (by simp))

theorem reflTransGen_of_rpath {r : String → String → Prop} {a b : String}
    {l : List String} (h : RPath r a b l) : Relation.ReflTransGen r a b := by
  induction h with
  | nil _ => exact Relation.ReflTransGen.refl
  | cons hab _ ih => exact Relation.ReflTransGen.head hab ih

theorem rpath_of_transGen {r : String → String → Prop} {a b : String}
    (h : Relation.TransGen r a b) : ∃ l, l ≠ [] ∧ RPath r a b l := by
  induction h with
  | single hab => exact ⟨[_], by simp, RPath.cons hab (RPath.nil _)⟩
  | tail _ hbc ih =>
    obtain ⟨l, _, hp⟩ := ih
    exact ⟨l ++ [_], by simp, rpath_append hp (RPath.cons hbc (RPath.nil _))⟩

theorem rpath_of_reflTransGen {r : String → String → Prop} {a b : String}
    (h : Relation.ReflTransGen r a b) : ∃ l, RPath r a b l := by
  induction h with
  | refl => exact ⟨[], RPath.nil a⟩
  | tail _ hbc ih =>
    obtain ⟨l, hp⟩ := ih
    exact ⟨l ++ [_], rpath_append hp (RPath.cons hbc (RPath.nil _))⟩

theorem rpath_mem_target {edges : List GEdge} {a b : String} {l : List String}
    (h : RPath (estep edges) a b l) :
    ∀ x ∈ l, x ∈ edges.map (fun e => e.target) := by
  induction h with
  | nil _ => simp
  | cons hab _ ih =>
    intro x hx
    rcases List.mem_cons.mp hx with rfl | hx
    · exact estep_target_mem hab
    · exact ih x hx

/-- On a prefix-acyclic edge set, every chain visits pairwise distinct nodes. -/
theorem rpath_nodup_of_acyclicFrom {edges : List GEdge} {a0 : String}
    (hac : AcyclicFrom edges a0) :
    ∀ {a b : String} {l : List String},
      Relation.ReflTransGen (estep edges) a0 a →
      RPath (estep edges) a b l → l.Nodup := by
  intro a b l ha0 h
  induction h with
  | nil _ => simp
  | @cons a b c l hab hp ih =>
    have hb0 : Relation.ReflTransGen (estep edges) a0 b :=
      Relation.ReflTransGen.tail ha0 hab
    refine List.nodup_cons.mpr ⟨?_, ih hb0⟩
    intro hmem
    obtain ⟨u, v, rfl⟩ := List.append_of_mem hmem
    obtain ⟨m, hm1, hm2⟩ := rpath_split hp
    cases hm2 with
    | cons hmb _ =>
      have : Relation.TransGen (estep edges) b b := by
        rcases List.eq_nil_or_concat u with rfl | _
        · have := rpath_nil_eq hm1
          subst this
          exact Relation.TransGen.single hmb
        · exact Relation.TransGen.tail
            (transGen_of_rpath hm1 (by rintro rfl; simp_all)) hmb
      exact hac b hb0 this

/-- On a prefix-acyclic edge set, chains are no longer than the edge list. -/
theorem rpath_length_le {edges : List GEdge} {a b : String} {l : List String}
    (hac : AcyclicFrom edges a) (h : RPath (estep edges) a b l) :
    l.length ≤ edges.length := by
  have hnd : l.Nodup := rpath_nodup_of_acyclicFrom hac Relation.ReflTransGen.refl h
  have hsub : l ⊆ edges.map (fun e => e.target) := fun x hx => rpath_mem_target h x hx
  have := (hnd.subperm hsub).length_le
  simpa using this

theorem getDescendantsF_sound {edges : List GEdge} :
    ∀ {fuel : Nat} {a x : String}, x ∈ getDescendantsF fuel edges a →
      Relation.TransGen (estep edges) a x := by
  intro fuel
  induction fuel with
  | zero => simp [getDescendantsF]
  | succ fuel ih =>
    intro a x hx
    simp only [getDescendantsF, List.mem_append, List.mem_flatMap] at hx
    rcases hx with hx | ⟨c, hc, hx⟩
    · exact Relation.TransGen.single (mem_childIds_iff.mp hx)
    · exact Relation.TransGen.head (mem_childIds_iff.mp hc) (ih hx)

theorem getDescendantsF_complete {edges : List GEdge} {a x : String}
    {l : List String} (h : RPath (estep edges) a x l) :
    ∀ {fuel : Nat}, l ≠ [] → l.length ≤ fuel → x ∈ getDescendantsF fuel edges a := by
  induction h with
  | nil _ => simp
  | @cons a b c l hab hp ih =>
    intro fuel _ hlen
    match fuel with
    | fuel + 1 =>
      simp only [getDescendantsF, List.mem_append, List.mem_flatMap]
      rcases List.eq_nil_or_concat l with rfl | hne
      · have := rpath_nil_eq hp
        subst this
        exact Or.inl (mem_childIds_iff.mpr hab)
      · refine Or.inr ⟨b, mem_childIds_iff.mpr hab, ih ?_ ?_⟩
        · rintro rfl; simp_all
        · simpa using Nat.le_of_succ_le_succ hlen

/-- Membership in the totalised descendant list coincides with edge
reachability, given acyclicity of the reachable part. -/
theorem mem_getDescendantIds_iff {edges : List GEdge} {a x : String}
    (hac : AcyclicFrom edges a) :
    x ∈ getDescendantIds edges a ↔ Relation.TransGen (estep edges) a x := by
  constructor
  · exact getDescendantsF_sound
  · intro h
    obtain ⟨l, hne, hp⟩ := rpath_of_transGen h
    exact getDescendantsF_complete hp hne
      (Nat.le_succ_of_le (rpath_length_le hac hp))

theorem findDescendantsF_sound {edges : List GEdge} :
    ∀ {fuel : Nat} {a x : String}, x ∈ findDescendantsF fuel edges a →
      x = a ∨ Relation.TransGen (estep edges) a x := by
  intro fuel
  induction fuel with
  | zero => simp [findDescendantsF]
  | succ fuel ih =>
    intro a x hx
    simp only [findDescendantsF, List.mem_cons, List.mem_flatMap] at hx
    rcases hx with rfl | ⟨c, hc, hx⟩
    · exact Or.inl rfl
    · rcases ih hx with rfl | hx
      · exact Or.inr (Relation.TransGen.single (mem_childIds_iff.mp hc))
      · exact Or.inr (Relation.TransGen.head (mem_childIds_iff.mp hc) hx)

theorem findDescendantsF_complete {edges : List GEdge} {a x : String}
    {l : List String} (h : RPath (estep edges) a x l) :
    ∀ {fuel : Nat}, l.length < fuel → x ∈ findDescendantsF fuel edges a := by
  induction h with
  | nil a =>
    intro fuel hf
    match fuel with
    | fuel + 1 => simp [findDescendantsF]
  | @cons a b c l hab hp ih =>
    intro fuel hlen
    match fuel with
    | fuel + 1 =>
      simp only [findDescendantsF, List.mem_cons, List.mem_flatMap]
      exact Or.inr ⟨b, mem_childIds_iff.mpr hab, ih (by simpa using hlen)⟩

/-- Membership in the totalised `findDescendants` list is exactly "the start
node or one of its proper descendants", given prefix acyclicity. -/
theorem mem_findDescendants_iff {edges : List GEdge} {a x : String}
    (hac : AcyclicFrom edges a) :
    x ∈ findDescendants edges a ↔ x = a ∨ Relation.TransGen (estep edges) a x := by
  constructor
  · exact findDescendantsF_sound
  · rintro (rfl | h)
    · exact findDescendantsF_complete (RPath.nil x) (by simp [Nat.succ_pos])
    · obtain ⟨l, _, hp⟩ := rpath_of_transGen h
      exact findDescendantsF_complete hp
        (Nat.lt_succ_of_le (rpath_length_le hac hp))

theorem flatMap_congr {α β : Type} {l : List α} {f g : α → List β}
    (h : ∀ a ∈ l, f a = g a) : l.flatMap f = l.flatMap g := by
  induction l with
  | nil => rfl
  | cons x xs ih =>
    simp only [List.flatMap_cons]
    rw [h x (by simp), ih (fun a ha => h a (by simp [ha]))]

theorem mem_childrenOf_estep {nodes : List TaskNode} {edges : List GEdge}
    {a : String} {c : TaskNode} (h : c ∈ childrenOf nodes edges a) :
    estep edges a c.id := by
  simp only [childrenOf, List.mem_filterMap] at h
  obtain ⟨i, hi, hfind⟩ := h
  have := List.find?_some hfind
  rw [beq_iff_eq] at this
  rw [this]
  exact mem_childIds_iff.mp hi

/-- A bound on all chain lengths out of `a` transfers to every child. -/
theorem pathBound_child {edges : List GEdge} {a b : String} {d : Nat}
    (hb : ∀ x l, RPath (estep edges) a x l → l.length ≤ d + 1)
    (hab : estep edges a b) :
    ∀ x l, RPath (estep edges) b x l → l.length ≤ d := by
  intro x l hp
  have := hb x (b :: l) (RPath.cons hab hp)
  simpa using this

theorem pathBound_of_acyclicFrom {edges : List GEdge} {a : String}
    (hac : AcyclicFrom edges a) :
    ∀ x l, RPath (estep edges) a x l → l.length ≤ edges.length :=
  fun _ l hp => by simpa using rpath_length_le hac hp

theorem getDescendantsF_stable_aux {edges : List GEdge} :
    ∀ (d : Nat) (a : String),
      (∀ x l, RPath (estep edges) a x l → l.length ≤ d) →
      ∀ f g, d < f → d < g →
        getDescendantsF f edges a = getDescendantsF g edges a := by
  intro d
  induction d with
  | zero =>
    intro a hb f g hf hg
    have hnil : childIds edges a = [] := by
      rcases h : childIds edges a with _ | ⟨b, rest⟩
      · rfl
      · have hmem : b ∈ childIds edges a := by rw [h]; simp
        have := hb b [b] (RPath.cons (mem_childIds_iff.mp hmem) (RPath.nil b))
        simp at this
    match f, g with
    | f + 1, g + 1 => simp [getDescendantsF, hnil]
  | succ d ih =>
    intro a hb f g hf hg
    match f, g with
    | f + 1, g + 1 =>
      simp only [getDescendantsF]
      refine congrArg _ (flatMap_congr ?_)
      intro c hc
      exact ih c (pathBound_child hb (mem_childIds_iff.mp hc)) f g
        (Nat.lt_of_succ_lt_succ hf) (Nat.lt_of_succ_lt_succ hg)

theorem findDescendantsF_stable_aux {edges : List GEdge} :
    ∀ (d : Nat) (a : String),
      (∀ x l, RPath (estep edges) a x l → l.length ≤ d) →
      ∀ f g, d < f → d < g →
        findDescendantsF f edges a = findDescendantsF g edges a := by
  intro d
  induction d with
  | zero =>
    intro a hb f g hf hg
    have hnil : childIds edges a = [] := by
      rcases h : childIds edges a with _ | ⟨b, rest⟩
      · rfl
      · have hmem : b ∈ childIds edges a := by rw [h]; simp
        have := hb b [b] (RPath.cons (mem_childIds_iff.mp hmem) (RPath.nil b))
        simp at this
    match f, g with
    | f + 1, g + 1 => simp [findDescendantsF, hnil]
  | succ d ih =>
    intro a hb f g hf hg
    match f, g with
    | f + 1, g + 1 =>
      simp only [findDescendantsF]
      refine congrArg _ (flatMap_congr ?_)
      intro c hc
      exact ih c (pathBound_child hb (mem_childIds_iff.mp hc)) f g
        (Nat.lt_of_succ_lt_succ hf) (Nat.lt_of_succ_lt_succ hg)

theorem calculateSubtreeHeightF_stable_aux {nodes : List TaskNode}
    {edges : List GEdge} {ns : ℚ} :
    ∀ (d : Nat) (a : String),
      (∀ x l, RPath (estep edges) a x l → l.length ≤ d) →
      ∀ f g, d < f → d < g →
        calculateSubtreeHeightF f nodes edges ns a =
          calculateSubtreeHeightF g nodes edges ns a := by
  intro d
  induction d with
  | zero =>
    intro a hb f g hf hg
    have hnil : childIds edges a = [] := by
      rcases h : childIds edges a with _ | ⟨b, rest⟩
      · rfl
      · have hmem : b ∈ childIds edges a := by rw [h]; simp
        have := hb b [b] (RPath.cons (mem_childIds_iff.mp hmem) (RPath.nil b))
        simp at this
    match f, g with
    | f + 1, g + 1 => simp [calculateSubtreeHeightF, childrenOf, hnil]
  | succ d ih =>
    intro a hb f g hf hg
    match f, g with
    | f + 1, g + 1 =>
      simp only [calculateSubtreeHeightF]
      cases nodes.find? (fun n => n.id == a) with
      | none => rfl
      | some node =>
        simp only []
        by_cases hemp : (childrenOf nodes edges a).isEmpty
        · simp [hemp]
        · simp only [hemp, if_false]
          have hmap : (childrenOf nodes edges a).map
              (fun c => calculateSubtreeHeightF f nodes edges ns c.id) =
              (childrenOf nodes edges a).map
              (fun c => calculateSubtreeHeightF g nodes edges ns c.id) := by
            refine List.map_congr_left ?_
            intro c hc
            exact ih c.id (pathBound_child hb (mem_childrenOf_estep hc)) f g
              (Nat.lt_of_succ_lt_succ hf) (Nat.lt_of_succ_lt_succ hg)
          rw [hmap]

/-- A rank function that strictly increases along every edge certifies
acyclicity. -/
theorem transGen_rank_lt {edges : List GEdge} {rank : String → Nat}
    (h : ∀ e ∈ edges, rank e.source < rank e.target) {a b : String}
    (hab : Relation.TransGen (estep edges) a b) : rank a < rank b := by
  induction hab with
  | single hs =>
    rcases hs with ⟨e, he, hsrc, htgt⟩
    subst hsrc; subst htgt
    exact h e he
  | tail _ hs ih =>
    rcases hs with ⟨e, he, hsrc, htgt⟩
    subst hsrc; subst htgt
    exact lt_trans ih (h e he)

theorem acyclic_of_rank (edges : List GEdge) (rank : String → Nat)
    (h : ∀ e ∈ edges, rank e.source < rank e.target) : Acyclic edges :=
  fun _ hx => absurd (transGen_rank_lt h hx) (lt_irrefl _)

theorem acyclic_nil : Acyclic ([] : List GEdge) := by
  intro x hx
  cases hx with
  | single h => rcases h with ⟨e, he, _⟩; exact absurd he (List.not_mem_nil e)
  | tail _ h => rcases h with ⟨e, he, _⟩; exact absurd he (List.not_mem_nil e)

/-- A single self-loop edge, on which the source descendant recursions
diverge. -/
def loopEdge : GEdge :=
  { id := "e", source := "a", target := "a", etype := "default",
    animated := false, style := none }

theorem getDescendantsF_loop_length :
    ∀ fuel, (getDescendantsF fuel [loopEdge] "a").length = fuel := by
  intro fuel
  induction fuel with
  | zero => rfl
  | succ fuel ih =>
    have hch : childIds [loopEdge] "a" = ["a"] := by decide
    simp [getDescendantsF, hch, ih]

/-- C9: the recursive descendant traversals (`getDescendantIds` in the layout
engine and the identical `getDescendants` helper of `canMoveNode`/`moveNode`,
the `findDescendants` helper of `deleteNodes`, and `calculateSubtreeHeight`)
carry no visited set.  When the edge set reachable from the starting id is
acyclic, each fueled embedding is stable for every fuel above the number of
edges — i.e. the source recursion is a well-defined total function there —
while on a self-loop the recursion has no fixed point (the result keeps
growing with the fuel), so the acyclicity hypothesis is required for
totality. -/
theorem C9_descendant_recursions_total :
    (∀ (edges : List GEdge) (a : String), AcyclicFrom edges a →
      ∀ f g, edges.length < f → edges.length < g →
        getDescendantsF f edges a = getDescendantsF g edges a) ∧
    (∀ (edges : List GEdge) (a : String), AcyclicFrom edges a →
      ∀ f g, edges.length < f → edges.length < g →
        findDescendantsF f edges a = findDescendantsF g edges a) ∧
    (∀ (nodes : List TaskNode) (edges : List GEdge) (ns : ℚ) (a : String),
      AcyclicFrom edges a →
      ∀ f g, edges.length < f → edges.length < g →
        calculateSubtreeHeightF f nodes edges ns a =
          calculateSubtreeHeightF g nodes edges ns a) ∧
    (∀ fuel, (getDescendantsF fuel [loopEdge] "a").length = fuel) := by
  refine ⟨?_, ?_, ?_, getDescendantsF_loop_length⟩
  · intro edges a hac f g hf hg
    exact getDescendantsF_stable_aux edges.length a
      (pathBound_of_acyclicFrom hac) f g hf hg
  · intro edges a hac f g hf hg
    exact findDescendantsF_stable_aux edges.length a
      (pathBound_of_acyclicFrom hac) f g hf hg
  · intro nodes edges ns a hac f g hf hg
    exact calculateSubtreeHeightF_stable_aux edges.length a
      (pathBound_of_acyclicFrom hac) f g hf hg

/-- Concrete witness for C9 at a concrete acyclic edge set and the self-loop. -/
theorem C9_descendant_recursions_total_witness :
    getDescendantsF 1 [] "root-1" = getDescendantsF 7 [] "root-1" ∧
    (getDescendantsF 3 [loopEdge] "a").length = 3 :=
  ⟨C9_descendant_recursions_total.1 [] "root-1"
      (acyclicFrom_of_acyclic acyclic_nil "root-1") 1 7 (by decide) (by decide),
    C9_descendant_recursions_total.2.2.2 3⟩

/-- Every mutating operation first runs `saveStateSnapshot` and never touches
the history stacks afterwards. -/
theorem applyOp_stack_shape (o : Op) (s : GraphState) :
    (applyOp o s).undoStack = capPush s.undoStack (snap s) ∧
    (applyOp o s).redoStack = [] := by
  cases o <;>
    simp only [applyOp, addNode, updateNodeLabel, toggleNodeCompleted, deleteNode,
      deleteNodes, swapNodeSlots, applyAutoLayout, pinNode, unpinNode, unpinAll,
      reorderPinnedNodes, toggleAllPinnedCompleted, setBatchTitle, moveNode,
      saveStateSnapshot] <;>
    (repeat' split) <;> simp

/-- C10: every mutating operation calls `saveStateSnapshot` before validating
its arguments, so any call — including one that changes nothing in the graph
snapshot (a stale id, a swap to the current slot, a pinned-toggle with an
empty pinned list) — pushes one undo snapshot (evicting the oldest beyond
depth 5) and empties the redo stack; hence `canRedo()` is false afterwards. -/
theorem C10_snapshot_pushed_before_validation (o : Op) (s : GraphState) :
    (applyOp o s).undoStack = capPush s.undoStack (snap s) ∧
    (applyOp o s).redoStack = [] ∧
    canRedo (applyOp o s) = false := by
  obtain ⟨h1, h2⟩ := applyOp_stack_shape o s
  exact ⟨h1, h2, by simp [canRedo, h2]⟩

/-- Keep the last five entries of a stack. -/
def cap5 (l : List Snapshot) : List Snapshot := l.drop (l.length - 5)

theorem cap5_of_le {l : List Snapshot} (h : l.length ≤ 5) : cap5 l = l := by
  simp [cap5, Nat.sub_eq_zero_of_le h]

theorem capPush_eq_cap5 {l : List Snapshot} (x : Snapshot) (h : l.length ≤ 5) :
    capPush l x = cap5 (l ++ [x]) := by
  unfold capPush cap5
  simp only [List.length_append, List.length_cons, List.length_nil]
  rcases Nat.lt_or_ge l.length 5 with h5 | h5
  · rw [if_neg (by omega), show l.length + 0 + 1 - 5 = 0 by omega]
    simp
  · have h55 : l.length = 5 := le_antisymm h h5
    rw [if_pos (by omega), show l.length + 0 + 1 - 5 = 1 by omega]
    simp [List.drop_one]

theorem capPush_length_le {l : List Snapshot} (x : Snapshot) (h : l.length ≤ 5) :
    (capPush l x).length ≤ 5 := by
  simp only [capPush]
  split <;> simp_all

theorem cap5_append_left (l t : List Snapshot) :
    cap5 (cap5 l ++ t) = cap5 (l ++ t) := by
  unfold cap5
  rw [← List.drop_append_of_le_length (by omega)]
  rw [List.drop_drop]
  congr 1
  simp only [List.length_append, List.length_drop]
  omega

theorem applyOp_undo_le {s : GraphState} (h : s.undoStack.length ≤ 5) (o : Op) :
    (applyOp o s).undoStack.length ≤ 5 := by
  rw [(applyOp_stack_shape o s).1]
  exact capPush_length_le _ h

/-- The pre-state snapshots recorded along a sequence of operations. -/
def snapTrail : List Op → GraphState → List Snapshot
  | [], _ => []
  | o :: rest, s => snap s :: snapTrail rest (applyOp o s)

theorem snapTrail_length (ops : List Op) : ∀ s, (snapTrail ops s).length = ops.length := by
  induction ops with
  | nil => intro s; rfl
  | cons o rest ih => intro s; simp [snapTrail, ih]

theorem applyOps_undoStack_cap (ops : List Op) :
    ∀ s : GraphState, s.undoStack.length ≤ 5 →
      (applyOps ops s).undoStack = cap5 (s.undoStack ++ snapTrail ops s) := by
  induction ops with
  | nil =>
    intro s h
    simp [applyOps, snapTrail, cap5_of_le h]
  | cons o rest ih =>
    intro s h
    have h1 := (applyOp_stack_shape o s).1
    have hle := applyOp_undo_le h o
    calc (applyOps (o :: rest) s).undoStack
        = (applyOps rest (applyOp o s)).undoStack := by
          simp [applyOps]
      _ = cap5 ((applyOp o s).undoStack ++ snapTrail rest (applyOp o s)) := ih _ hle
      _ = cap5 (cap5 (s.undoStack ++ [snap s]) ++ snapTrail rest (applyOp o s)) := by
          rw [h1, capPush_eq_cap5 _ h]
      _ = cap5 ((s.undoStack ++ [snap s]) ++ snapTrail rest (applyOp o s)) :=
          cap5_append_left _ _
      _ = cap5 (s.undoStack ++ snapTrail (o :: rest) s) := by
          simp [snapTrail, List.append_assoc]

theorem applyOps_undo_le (ops : List Op) :
    ∀ s : GraphState, s.undoStack.length ≤ 5 →
      (applyOps ops s).undoStack.length ≤ 5 := by
  induction ops with
  | nil => intro s h; simpa [applyOps] using h
  | cons o rest ih =>
    intro s h
    have := applyOp_undo_le h o
    simpa [applyOps] using ih _ this

/-- Effect of `undo` on a state with a nonempty undo stack. -/
theorem undo_spec (s : GraphState) (l : List Snapshot) (x : Snapshot)
    (h : s.undoStack = l ++ [x]) :
    undo s = { s with
      nodes := x.nodes
      edges := x.edges
      pinnedNodeIds := x.pinnedNodeIds
      batchTitle := restoreTitle x.batchTitle
      undoStack := l
      redoStack := capPush s.redoStack (snap s) } := by
  unfold undo
  rw [h, List.getLast?_concat]
  simp only [List.dropLast_concat]

theorem undo_of_empty (s : GraphState) (h : s.undoStack = []) : undo s = s := by
  unfold undo
  rw [h]
  rfl

/-- Iterating `undo` down a stack of `k + 1` snapshots restores the bottom
snapshot (up to the empty-title default) and empties the undo stack. -/
theorem undo_iterate (k : Nat) :
    ∀ (s : GraphState) (x : Snapshot) (l : List Snapshot),
      s.undoStack = x :: l → l.length = k →
      snap (undo^[k + 1] s) =
        ⟨x.nodes, x.edges, x.pinnedNodeIds, restoreTitle x.batchTitle⟩ ∧
      (undo^[k + 1] s).undoStack = [] := by
  induction k with
  | zero =>
    intro s x l h hl
    have hl0 : l = [] := List.eq_nil_of_length_eq_zero hl
    subst hl0
    have hspec := undo_spec s [] x (by simpa using h)
    have h1 : undo^[0 + 1] s = undo s := by
      rw [Function.iterate_succ_apply, Function.iterate_zero_apply]
    rw [h1, hspec]
    exact ⟨rfl, rfl⟩
  | succ k ih =>
    intro s x l h hl
    have hne : l ≠ [] := by
      intro hnil
      rw [hnil] at hl
      simp at hl
    obtain ⟨l2, y, rfl⟩ := List.eq_nil_or_concat l |>.resolve_left hne
    have hx : s.undoStack = (x :: l2) ++ [y] := by simpa using h
    have hstep := undo_spec s (x :: l2) y hx
    have hiter : undo^[k + 1 + 1] s = undo^[k + 1] (undo s) :=
      Function.iterate_succ_apply undo (k + 1) s
    rw [hiter, hstep]
    refine ih _ x l2 rfl ?_
    have : l2.length + 1 = k + 1 := by simpa using hl
    omega

/-- Sample node builder used by concrete witnesses and counterexamples. -/
def mkN (i : String) (lvl slot : Int) (lbl : String) (px py : ℚ) : TaskNode :=
  { id := i, ntype := "editableNode", position := ⟨px, py⟩,
    data := { label := lbl, level := lvl, slot := slot } }

/-- Sample three-node graph (a root with two level-1 children). -/
def demoNodes : List TaskNode :=
  [mkN "r" 0 0 "Root" 0 0, mkN "a" 1 0 "A" 0 0, mkN "b" 1 1 "B" 0 0]

def demoEdges : List GEdge := [mkNewEdge "e1" "r" "a", mkNewEdge "e2" "r" "b"]

def demoState : GraphState :=
  { nodes := demoNodes, edges := demoEdges, pinnedNodeIds := [],
    batchTitle := "Current Batch", isDragging := false, isAutoFormatting := false,
    editingNodeId := none, nodeToCure := none, undoStack := [], redoStack := [] }

def demoSnapshot : Snapshot := ⟨demoNodes, demoEdges, [], "Current Batch"⟩

theorem demoEdges_acyclic : Acyclic demoEdges :=
  acyclic_of_rank demoEdges (fun i => if i = "r" then 0 else 1) (by decide)

/-- A state whose batch title is the empty string. -/
def emptyTitleState : GraphState :=
  { nodes := [], edges := [], pinnedNodeIds := [], batchTitle := "",
    isDragging := false, isAutoFormatting := false, editingNodeId := none,
    nodeToCure := none, undoStack := [], redoStack := [] }

/-- C3 counterexample: from a state with empty history stacks and the empty
batch title, one mutating operation followed by one `undo()` yields a
snapshot that differs from the original — the restore replaces the falsy
empty title by the default `'Current Batch'`. -/
theorem C3_undo_round_trip_counterexample :
    snap (undo^[1] (applyOps [Op.setBatchTitle "x"] emptyTitleState)) ≠
      snap emptyTitleState := by
  decide

/-- C3 (amended): starting from a state with empty history stacks and a
nonempty batch title, any sequence of at most five mutating operations
followed by the same number of `undo()` calls restores a structurally equal
graph snapshot; moreover the undo stack never exceeds depth 5 under any
operation sequence, `undo()` on an empty undo stack is a complete no-op, and
after six operations the sixth undo is a no-op (the five retained snapshots
are exhausted), never restoring anything older.  (The claim as stated fails
only for the empty batch title, which the restore path rewrites to the
default `'Current Batch'`.) -/
theorem C3_undo_round_trip (s0 : GraphState) (ops : List Op)
    (h0u : s0.undoStack = []) (_h0r : s0.redoStack = [])
    (hlen : ops.length ≤ 5) (htitle : s0.batchTitle ≠ "") :
    snap (undo^[ops.length] (applyOps ops s0)) = snap s0 ∧
    (∀ ops2 : List Op, (applyOps ops2 s0).undoStack.length ≤ 5) ∧
    (∀ t : GraphState, t.undoStack = [] → undo t = t) ∧
    (∀ ops6 : List Op, ops6.length = 6 →
      undo (undo^[5] (applyOps ops6 s0)) = undo^[5] (applyOps ops6 s0)) := by
  have hle0 : s0.undoStack.length ≤ 5 := by rw [h0u]; simp
  refine ⟨?_, ?_, fun t ht => undo_of_empty t ht, ?_⟩
  · cases ops with
    | nil => simp [applyOps]
    | cons o rest =>
      have hstack := applyOps_undoStack_cap (o :: rest) s0 hle0
      rw [h0u] at hstack
      have htr : snapTrail (o :: rest) s0 = snap s0 :: snapTrail rest (applyOp o s0) := rfl
      have hlen5 : (snapTrail (o :: rest) s0).length ≤ 5 := by
        rw [snapTrail_length]
        exact hlen
      rw [htr] at hstack hlen5
      have hcap : cap5 ([] ++ snap s0 :: snapTrail rest (applyOp o s0)) =
          snap s0 :: snapTrail rest (applyOp o s0) := by
        rw [List.nil_append]
        exact cap5_of_le hlen5
      rw [hcap] at hstack
      have hk : (snapTrail rest (applyOp o s0)).length = rest.length := snapTrail_length _ _
      have := (undo_iterate rest.length (applyOps (o :: rest) s0) (snap s0)
        (snapTrail rest (applyOp o s0)) hstack hk).1
      have hlist : (o :: rest).length = rest.length + 1 := rfl
      rw [hlist, this]
      simp [snap, restoreTitle, htitle]
  · intro ops2
    exact applyOps_undo_le ops2 s0 hle0
  · intro ops6 h6
    have hstack := applyOps_undoStack_cap ops6 s0 hle0
    rw [h0u, List.nil_append] at hstack
    have hlen6 : (snapTrail ops6 s0).length = 6 := by rw [snapTrail_length]; exact h6
    have hdrop : (cap5 (snapTrail ops6 s0)).length = 5 := by
      simp only [cap5, List.length_drop, hlen6]
    rcases hx : cap5 (snapTrail ops6 s0) with _ | ⟨x, l⟩
    · rw [hx] at hdrop; simp at hdrop
    · rw [hx] at hstack hdrop
      have hl4 : l.length = 4 := by simpa using hdrop
      have := (undo_iterate 4 (applyOps ops6 s0) x l hstack hl4).2
      exact undo_of_empty _ this

/-- Concrete witness for C3: two operations and two undos on the sample
state restore the original snapshot. -/
theorem C3_undo_round_trip_witness :
    snap (undo^[2] (applyOps [Op.setBatchTitle "t1", Op.unpinAll] demoState)) =
      snap demoState := by
  have h := (C3_undo_round_trip demoState [Op.setBatchTitle "t1", Op.unpinAll]
    rfl rfl (by decide) (by decide)).1
  simpa using h

/-- C4 (amended): `loadFromJSON` itself leaves both history stacks empty;
once the automatic auto-layout pass it schedules has run, the redo stack is
empty but the undo stack holds exactly one snapshot — the freshly loaded
state as it was before the layout pass (because `applyAutoLayout` itself
saves an undo snapshot first).  The claim as stated — both stacks empty
after the scheduled pass completes — fails on the undo stack. -/
theorem C4_load_clears_history (input : Snapshot) (s : GraphState) :
    (loadFromJSON input s).undoStack = [] ∧
    (loadFromJSON input s).redoStack = [] ∧
    (loadFromJSONSettled input s).redoStack = [] ∧
    (loadFromJSONSettled input s).undoStack = [snap (loadFromJSON input s)] := by
  refine ⟨rfl, rfl, ?_, ?_⟩
  · exact (applyOp_stack_shape Op.applyAutoLayout (loadFromJSON input s)).2
  · have h := (applyOp_stack_shape Op.applyAutoLayout (loadFromJSON input s)).1
    have hempty : (loadFromJSON input s).undoStack = [] := rfl
    rw [hempty] at h
    simpa [capPush] using h

/-- C4 counterexample: after loading a well-formed snapshot and letting the
scheduled auto-layout pass run, the undo stack is not empty. -/
theorem C4_load_clears_history_counterexample :
    (loadFromJSONSettled demoSnapshot demoState).undoStack ≠ [] := by
  decide

/-- The pinned list after `addNode`: the parent is filtered out exactly when
the parent id is truthy, currently pinned, and found among the nodes. -/
theorem addNode_pinned (parentId : Option String) (lvl : Int)
    (nid eid : String) (s : GraphState) :
    (addNode parentId lvl nid eid s).pinnedNodeIds =
      if strTruthy parentId && s.pinnedNodeIds.contains (parentId.getD "") then
        match s.nodes.find? (fun n => n.id == parentId.getD "") with
        | some _ => s.pinnedNodeIds.filter (fun i => i ≠ parentId.getD "")
        | none => s.pinnedNodeIds
      else s.pinnedNodeIds := by
  simp only [addNode, saveStateSnapshot]
  split
  · split <;> rfl
  · rfl

/-- C7 (amended): for every state in which a node with the nonempty id `p`
exists and `p` is pinned, `addNode(p, level)` removes `p` from the pinned
list in the same operation.  (The claim as stated additionally covers the
empty id `""`, which JavaScript truthiness treats as an absent parent, so a
pinned node with the empty id is not unpinned.) -/
theorem C7_addNode_unpins_parent (s : GraphState) (p : String) (lvl : Int)
    (nid eid : String) (hp : p ≠ "") (hmem : ∃ n ∈ s.nodes, n.id = p)
    (hpin : p ∈ s.pinnedNodeIds) :
    p ∉ (addNode (some p) lvl nid eid s).pinnedNodeIds := by
  obtain ⟨n0, hn0, hid0⟩ := hmem
  rw [addNode_pinned]
  have hcond : (strTruthy (some p) && s.pinnedNodeIds.contains ((some p).getD "")) = true := by
    simp [strTruthy, hp, hpin]
  rw [hcond, if_pos rfl]
  simp only [Option.getD_some]
  rcases hfind : s.nodes.find? (fun n => n.id == p) with _ | n1
  · have := List.find?_eq_none.mp hfind n0 hn0
    simp [hid0] at this
  · rw [hfind]
    simp

/-- Concrete witness for C7: adding a child to the pinned node `b` removes it
from the pinned list. -/
theorem C7_addNode_unpins_parent_witness :
    "b" ∉ (addNode (some "b") 2 "n1" "e9"
      { demoState with pinnedNodeIds := ["b"] }).pinnedNodeIds :=
  C7_addNode_unpins_parent { demoState with pinnedNodeIds := ["b"] } "b" 2 "n1" "e9"
    (by decide) ⟨mkN "b" 1 1 "B" 0 0, by decide, by decide⟩ (by decide)

/-- A state holding a node with the empty-string id, which is pinned. -/
def emptyIdState : GraphState :=
  { nodes := [mkN "" 2 0 "x" 0 0], edges := [], pinnedNodeIds := [""],
    batchTitle := "Current Batch", isDragging := false, isAutoFormatting := false,
    editingNodeId := none, nodeToCure := none, undoStack := [], redoStack := [] }

/-- C7 counterexample: the node with id `""` exists and is pinned, yet
`addNode("", 0)` leaves it pinned, because `if (parentId && ...)` treats the
empty string as falsy and skips both the unpinning and the edge creation. -/
theorem C7_addNode_unpins_parent_counterexample :
    (∃ n ∈ emptyIdState.nodes, n.id = "") ∧
    "" ∈ emptyIdState.pinnedNodeIds ∧
    "" ∈ (addNode (some "") 0 "n1" "e9" emptyIdState).pinnedNodeIds := by
  decide

theorem map_id_of_mem {α : Type} {l : List α} {f : α → α}
    (h : ∀ a ∈ l, f a = a) : l.map f = l := by
  induction l with
  | nil => rfl
  | cons a t ih => simp [h a (by simp), ih (fun b hb => h b (by simp [hb]))]

/-- C8: on a well-formed state (every edge endpoint names an existing node),
calling `deleteNode`, `swapNodeSlots`, `updateNodeLabel`,
`toggleNodeCompleted`, or `moveNode` (with the stale id in either argument
position) with an id not present in the node list leaves the graph snapshot
(nodes, edges, pinnedNodeIds, batchTitle) unchanged; the total embeddings
raise no fault. -/
theorem C8_stale_id_noop (s : GraphState) (x : String)
    (hwf : ∀ e ∈ s.edges,
      (∃ n ∈ s.nodes, n.id = e.source) ∧ (∃ n ∈ s.nodes, n.id = e.target))
    (hx : ∀ n ∈ s.nodes, n.id ≠ x) :
    snap (deleteNode x s) = snap s ∧
    (∀ t : Int, snap (swapNodeSlots x t s) = snap s) ∧
    (∀ lbl : String, snap (updateNodeLabel x lbl s) = snap s) ∧
    snap (toggleNodeCompleted x s) = snap s ∧
    (∀ y eid : String, snap (moveNode x y eid s) = snap s) ∧
    (∀ n eid : String, snap (moveNode n x eid s) = snap s) := by
  have hfind : s.nodes.find? (fun n => n.id == x) = none :=
    List.find?_eq_none.mpr (fun n hn => by simp [hx n hn])
  refine ⟨?_, ?_, ?_, ?_, ?_, ?_⟩
  · have hchild : childIds s.edges x = [] := by
      rcases h : childIds s.edges x with _ | ⟨b, rest⟩
      · rfl
      · exfalso
        have hb : b ∈ childIds s.edges x := by rw [h]; simp
        obtain ⟨e, he, hsrc, _⟩ := mem_childIds_iff.mp hb
        obtain ⟨⟨n, hn, hid⟩, _⟩ := hwf e he
        exact hx n hn (hid.trans hsrc)
    have hdesc : findDescendants s.edges x = [x] := by
      unfold findDescendants
      simp [findDescendantsF, hchild]
    show snap (deleteNodes [x] s) = snap s
    unfold deleteNodes
    have hall : [x].flatMap (fun i => findDescendants s.edges i) = [x] := by
      simp [hdesc]
    simp only [hall, snap, saveStateSnapshot]
    have hn1 : s.nodes.filter (fun n => !([x].contains n.id)) = s.nodes := by
      rw [List.filter_eq_self]
      intro n hn
      simp [hx n hn]
    have he1 : s.edges.filter
        (fun e => !([x].contains e.source) && !([x].contains e.target)) = s.edges := by
      rw [List.filter_eq_self]
      intro e he
      obtain ⟨⟨n1, hn1m, hid1⟩, ⟨n2, hn2m, hid2⟩⟩ := hwf e he
      have hs1 : e.source ≠ x := fun hh => hx n1 hn1m (hid1.trans hh)
      have hs2 : e.target ≠ x := fun hh => hx n2 hn2m (hid2.trans hh)
      simp [hs1, hs2]
    rw [hn1, he1]
  · intro t
    simp only [swapNodeSlots, saveStateSnapshot]
    rw [hfind]
    rfl
  · intro lbl
    unfold updateNodeLabel
    have hmap : s.nodes.map (fun node =>
        if node.id == x then { node with data := { node.data with label := lbl } }
        else node) = s.nodes :=
      map_id_of_mem (fun n hn => by simp [hx n hn])
    simp only [saveStateSnapshot, snap, hmap]
  · unfold toggleNodeCompleted
    have hmap : s.nodes.map (fun node =>
        if node.id == x then
          { node with data :=
            { node.data with completed := some (!(node.data.completed.getD false)) } }
        else node) = s.nodes :=
      map_id_of_mem (fun n hn => by simp [hx n hn])
    simp only [saveStateSnapshot, snap, hmap]
  · intro y eid
    simp only [moveNode, saveStateSnapshot]
    rw [hfind]
    rcases s.nodes.find? (fun n => n.id == y) with _ | n1 <;> rfl
  · intro n eid
    simp only [moveNode, saveStateSnapshot]
    rw [hfind]
    rcases hf2 : s.nodes.find? (fun n2 => n2.id == n) with _ | n1 <;> rw [hf2] <;> rfl

/-- Concrete witness for C8: deleting the stale id `"zzz"` on the sample
state leaves the snapshot unchanged. -/
theorem C8_stale_id_noop_witness :
    snap (deleteNode "zzz" demoState) = snap demoState :=
  (C8_stale_id_noop demoState "zzz" (by decide) (by decide)).1

/-- The id set removed by a `deleteNodes` request: the union over the
requested ids of the id itself and its reachable descendants. -/
def RemovedBy (edges : List GEdge) (ids : List String) (x : String) : Prop :=
  ∃ r ∈ ids, x = r ∨ Relation.TransGen (estep edges) r x

/-- C2: on an acyclic edge set (the domain on which the source recursion
terminates, cf. C9), `deleteNodes` removes exactly the union over the
requested ids of the id and its descendants — the node list is filtered once
against that union, so ids sharing descendants remove each node exactly once
— and afterwards no edge whose source or target is a removed id remains;
`deleteNode` is literally the singleton case. -/
theorem C2_deleteNodes_exact (s : GraphState) (ids : List String)
    (hac : Acyclic s.edges) :
    (deleteNodes ids s).nodes = s.nodes.filter
      (fun n => !((ids.flatMap (fun i => findDescendants s.edges i)).contains n.id)) ∧
    (∀ x, x ∈ ids.flatMap (fun i => findDescendants s.edges i) ↔
      RemovedBy s.edges ids x) ∧
    (deleteNodes ids s).edges = s.edges.filter
      (fun e => !((ids.flatMap (fun i => findDescendants s.edges i)).contains e.source) &&
        !((ids.flatMap (fun i => findDescendants s.edges i)).contains e.target)) ∧
    (∀ e ∈ (deleteNodes ids s).edges,
      ¬ RemovedBy s.edges ids e.source ∧ ¬ RemovedBy s.edges ids e.target) ∧
    (∀ x : String, deleteNode x s = deleteNodes [x] s) := by
  have hchar : ∀ x, x ∈ ids.flatMap (fun i => findDescendants s.edges i) ↔
      RemovedBy s.edges ids x := by
    intro x
    rw [List.mem_flatMap]
    constructor
    · rintro ⟨r, hr, hx⟩
      exact ⟨r, hr, (mem_findDescendants_iff (acyclicFrom_of_acyclic hac r)).mp hx⟩
    · rintro ⟨r, hr, hx⟩
      exact ⟨r, hr, (mem_findDescendants_iff (acyclicFrom_of_acyclic hac r)).mpr hx⟩
  refine ⟨rfl, hchar, rfl, ?_, fun _ => rfl⟩
  intro e he
  have : e ∈ s.edges.filter
      (fun e => !((ids.flatMap (fun i => findDescendants s.edges i)).contains e.source) &&
        !((ids.flatMap (fun i => findDescendants s.edges i)).contains e.target)) := he
  rw [List.mem_filter] at this
  obtain ⟨-, hcond⟩ := this
  simp at hcond
  constructor
  · intro hrem
    obtain ⟨r, hr, hmem⟩ := List.mem_flatMap.mp ((hchar e.source).mpr hrem)
    exact hcond.1 r hr hmem
  · intro hrem
    obtain ⟨r, hr, hmem⟩ := List.mem_flatMap.mp ((hchar e.target).mpr hrem)
    exact hcond.2 r hr hmem

/-- Concrete witness for C2: deleting `"a"` from the sample graph filters the
node list against `{a} ∪ descendants(a)`. -/
theorem C2_deleteNodes_exact_witness :
    (deleteNodes ["a"] demoState).nodes = demoState.nodes.filter
      (fun n => !((["a"].flatMap
        (fun i => findDescendants demoState.edges i)).contains n.id)) :=
  (C2_deleteNodes_exact demoState ["a"] demoEdges_acyclic).1

/-- Forget a node's position (used to state frame conditions: the layout
passes change nothing but positions). -/
def stripPos (n : TaskNode) : TaskNode := { n with position := ⟨0, 0⟩ }

/-- Every value stored in the positioned map agrees with some input node on
everything except the position. -/
def MapFaithful (nodes : List TaskNode) (m : PosMap) : Prop :=
  ∀ p ∈ m, ∃ w ∈ nodes, stripPos p.2 = stripPos w

theorem positionChildren_faithful (rec : String → ℚ → ℚ → PosMap → PosMap)
    (nodes : List TaskNode) (edges : List GEdge) (ls ns x : ℚ)
    (ih : ∀ (nid : String) (x2 cy2 : ℚ) (M : PosMap), MapFaithful nodes M →
      MapFaithful nodes (rec nid x2 cy2 M)) :
    ∀ (cs : List TaskNode) (cy : ℚ) (M : PosMap), MapFaithful nodes M →
      MapFaithful nodes (positionChildren rec nodes edges ls ns x cs cy M) := by
  intro cs
  induction cs with
  | nil =>
    intro cy M hM
    simpa [positionChildren] using hM
  | cons c rest ihc =>
    intro cy M hM
    simp only [positionChildren]
    exact ihc _ _ (ih c.id _ _ M hM)

theorem positionSubtreeF_faithful :
    ∀ (fuel : Nat) (nodes : List TaskNode) (edges : List GEdge) (ls ns : ℚ)
      (nid : String) (x cy : ℚ) (M : PosMap), MapFaithful nodes M →
      MapFaithful nodes (positionSubtreeF fuel nodes edges ls ns nid x cy M) := by
  intro fuel
  induction fuel with
  | zero =>
    intro nodes edges ls ns nid x cy M hM
    simpa [positionSubtreeF] using hM
  | succ fuel ih =>
    intro nodes edges ls ns nid x cy M hM
    rw [positionSubtreeF]
    split
    · exact hM
    · next node hfind =>
      split
      · exact hM
      · have hmem : node ∈ nodes := List.mem_of_find?_eq_some hfind
        have hM1 : MapFaithful nodes
            (pmSet M nid { node with position := ⟨x, cy⟩ }) := by
          intro p hp
          rcases List.mem_cons.mp hp with rfl | hp
          · exact ⟨node, hmem, rfl⟩
          · exact hM p hp
        dsimp only
        split
        · exact hM1
        · exact positionChildren_faithful
            (fun nid2 x2 cy2 m2 =>
              positionSubtreeF fuel nodes edges ls ns nid2 x2 cy2 m2)
            nodes edges ls ns x
            (fun nid2 x2 cy2 M2 => ih nodes edges ls ns nid2 x2 cy2 M2) _ _ _ hM1

theorem positionRoots_faithful (nodes : List TaskNode) (edges : List GEdge)
    (config : LayoutConfig) (ls ns : ℚ) :
    ∀ (roots : List TaskNode) (cy : ℚ) (M : PosMap), MapFaithful nodes M →
      MapFaithful nodes (positionRoots nodes edges config ls ns roots cy M) := by
  intro roots
  induction roots with
  | nil =>
    intro cy M hM
    simpa [positionRoots] using hM
  | cons root rest ih =>
    intro cy M hM
    simp only [positionRoots]
    exact ih _ _ (positionSubtreeF_faithful _ nodes edges ls ns root.id _ _ M hM)

theorem layoutPositioned_faithful (nodes : List TaskNode) (edges : List GEdge)
    (config : LayoutConfig) :
    MapFaithful nodes (layoutPositioned nodes edges config) := by
  unfold layoutPositioned
  exact positionRoots_faithful nodes edges config _ _ _ _ [] (by intro p hp; simp at hp)

/-- Frame relation between an input node list and an output list: every
output node agrees with some input node except possibly on position. -/
def FrameOf (nodes out : List TaskNode) : Prop :=
  ∀ n ∈ out, ∃ w ∈ nodes, stripPos n = stripPos w

theorem frameOf_id (nodes : List TaskNode) : FrameOf nodes nodes :=
  fun n hn => ⟨n, hn, rfl⟩

theorem frameOf_map_of_stripPos {l : List TaskNode} {f : TaskNode → TaskNode}
    (hf : ∀ n ∈ l, stripPos (f n) = stripPos n) : FrameOf l (l.map f) := by
  intro n hn
  obtain ⟨w, hw, rfl⟩ := List.mem_map.mp hn
  exact ⟨w, hw, hf w hw⟩

theorem frameOf_trans {a b c : List TaskNode} (h1 : FrameOf a b)
    (h2 : FrameOf b c) : FrameOf a c := by
  intro n hn
  obtain ⟨w, hw, he⟩ := h2 n hn
  obtain ⟨v, hv, he2⟩ := h1 w hw
  exact ⟨v, hv, he.trans he2⟩

theorem stripPos_applyOffset (dx dy : ℚ) (n : TaskNode) :
    stripPos (applyOffset dx dy n) = stripPos n := rfl

theorem parentPreservePass_frame (config : LayoutConfig) (edges : List GEdge)
    (l : List TaskNode) : FrameOf l (parentPreservePass config edges l) := by
  unfold parentPreservePass
  split
  · dsimp only
    split
    · apply frameOf_map_of_stripPos
      intro n _
      split <;> rfl
    · exact frameOf_id l
  · exact frameOf_id l

/-- The layout engine never alters an id, label, level, slot, completion flag
or node type: every output node agrees with some input node except on
position. -/
theorem calculateLayout_frame (nodes : List TaskNode) (edges : List GEdge)
    (config : LayoutConfig) : FrameOf nodes (calculateLayout nodes edges config) := by
  have hfaith := layoutPositioned_faithful nodes edges config
  have hlay : FrameOf nodes (nodes.map (fun n =>
      (pmGet (layoutPositioned nodes edges config) n.id).getD n)) := by
    intro n hn
    obtain ⟨w, hw, rfl⟩ := List.mem_map.mp hn
    rcases hg : pmGet (layoutPositioned nodes edges config) w.id with _ | v
    · exact ⟨w, hw, by simp [hg]⟩
    · obtain ⟨p, hp, rfl⟩ :
          ∃ p ∈ layoutPositioned nodes edges config, p.2 = v := by
        unfold pmGet at hg
        rcases hf : List.find? (fun p => p.1 == w.id)
            (layoutPositioned nodes edges config) with _ | q
        · rw [hf] at hg
          exact absurd hg (by simp)
        · rw [hf] at hg
          rw [Option.map_some'] at hg
          exact ⟨q, List.mem_of_find?_eq_some hf, by simpa using hg⟩
      obtain ⟨v2, hv2, he⟩ := hfaith p hp
      exact ⟨v2, hv2, by simpa [hg] using he⟩
  unfold calculateLayout
  dsimp only
  split
  · exact frameOf_id nodes
  · repeat' split
    all_goals
      first
        | exact frameOf_trans hlay (parentPreservePass_frame _ _ _)
        | (refine frameOf_trans (frameOf_trans hlay ?_) (parentPreservePass_frame _ _ _)
           apply frameOf_map_of_stripPos
           intro n _
           dsimp only
           split <;> rfl)

theorem rtg_union_decompose {r : String → String → Prop} {p n : String}
    (hnp : ¬ Relation.ReflTransGen r n p) :
    ∀ {a b : String},
      Relation.ReflTransGen (fun x y => r x y ∨ (x = p ∧ y = n)) a b →
      Relation.ReflTransGen r a b ∨
        (Relation.ReflTransGen r a p ∧ Relation.ReflTransGen r n b) := by
  intro a b h
  induction h with
  | refl => exact Or.inl Relation.ReflTransGen.refl
  | tail hab hbc ih =>
    rcases hbc with hr | ⟨rfl, rfl⟩
    · rcases ih with h1 | ⟨h1, h2⟩
      · exact Or.inl (h1.tail hr)
      · exact Or.inr ⟨h1, h2.tail hr⟩
    · rcases ih with h1 | ⟨h1, h2⟩
      · exact Or.inr ⟨h1, Relation.ReflTransGen.refl⟩
      · exact absurd h2 hnp

/-- Adding a single edge `p → n` to an acyclic relation keeps it acyclic,
provided `p` is not reachable from `n` and differs from it. -/
theorem acyclic_union_single {r : String → String → Prop} {p n : String}
    (hacyc : ∀ x, ¬ Relation.TransGen r x x) (hne : n ≠ p)
    (hnp : ¬ Relation.ReflTransGen r n p) :
    ∀ x, ¬ Relation.TransGen (fun x y => r x y ∨ (x = p ∧ y = n)) x x := by
  intro x hx
  cases hx with
  | single hr =>
    rcases hr with hr | ⟨rfl, rfl⟩
    · exact hacyc x (Relation.TransGen.single hr)
    · exact hne rfl
  | tail hxb hbx =>
    rcases hbx with hr | ⟨hp, hn⟩
    · rcases rtg_union_decompose hnp hxb.to_reflTransGen with h1 | ⟨h1, h2⟩
      · exact hacyc x (Relation.TransGen.tail' h1 hr)
      · exact hnp ((h2.tail hr).trans h1)
    · subst hn
      rw [hp] at hxb
      rcases rtg_union_decompose hnp hxb.to_reflTransGen with h1 | ⟨h1, h2⟩
      · exact hnp h1
      · exact hnp h1

/-- What `canMoveNode = true` guarantees: both nodes are found and the target
is neither the node itself nor one of its descendants. -/
theorem canMoveNode_true_elim {s : GraphState} {nodeId targetParentId : String}
    (h : canMoveNode s nodeId targetParentId = true) :
    (∃ node, s.nodes.find? (fun n => n.id == nodeId) = some node) ∧
    (∃ tp, s.nodes.find? (fun n => n.id == targetParentId) = some tp) ∧
    targetParentId ∉ getDescendants s.edges nodeId ∧
    nodeId ≠ targetParentId := by
  unfold canMoveNode at h
  dsimp only at h
  rcases hf1 : s.nodes.find? (fun n => n.id == nodeId) with _ | node <;> rw [hf1] at h
  · exact absurd h (by simp)
  rcases hf2 : s.nodes.find? (fun n => n.id == targetParentId) with _ | tp <;>
    rw [hf2] at h
  · exact absurd h (by simp)
  dsimp only at h
  refine ⟨⟨node, hf1⟩, ⟨tp, hf2⟩, ?_, ?_⟩
  · intro hmem
    rw [if_pos (by simp [hmem])] at h
    exact Bool.false_ne_true h
  · intro heq
    rw [if_pos (by simp [heq])] at h
    exact Bool.false_ne_true h

theorem clamp02_bounds (v : Int) : 0 ≤ clamp02 v ∧ clamp02 v ≤ 2 := by
  unfold clamp02
  omega

/-- Levels in the interval [0,2]. -/
def LevelsOk (nodes : List TaskNode) : Prop :=
  ∀ n ∈ nodes, 0 ≤ n.data.level ∧ n.data.level ≤ 2

/-- `LevelsOk` is preserved by any layout run (only positions change). -/
theorem levelsOk_calculateLayout {nodes : List TaskNode} {edges : List GEdge}
    {config : LayoutConfig} (h : LevelsOk nodes) :
    LevelsOk (calculateLayout nodes edges config) := by
  intro n hn
  obtain ⟨w, hw, he⟩ := calculateLayout_frame nodes edges config n hn
  have hdata : n.data = w.data := by
    have h2 := congrArg TaskNode.data he
    simpa [stripPos] using h2
  rw [congrArg NodeData.level hdata]
  exact h w hw

theorem levelsOk_map {l : List TaskNode} {f : TaskNode → TaskNode}
    (h : ∀ a ∈ l, 0 ≤ (f a).data.level ∧ (f a).data.level ≤ 2) :
    LevelsOk (l.map f) := by
  intro n hn
  obtain ⟨a, ha, rfl⟩ := List.mem_map.mp hn
  exact h a ha

/-- Shape of the state after a successful `moveNode`: every resulting edge is
either an original edge not pointing at the moved node, or the freshly
attached edge from the new parent to the moved node; and node levels stay in
[0,2]. -/
theorem moveNode_spec {s : GraphState} {nodeId newParentId eid : String}
    {node tp : TaskNode}
    (hf1 : s.nodes.find? (fun n => n.id == nodeId) = some node)
    (hf2 : s.nodes.find? (fun n => n.id == newParentId) = some tp) :
    (∀ e ∈ (moveNode nodeId newParentId eid s).edges,
      (e ∈ s.edges ∧ e.target ≠ nodeId) ∨
        (e.source = newParentId ∧ e.target = nodeId)) ∧
    (LevelsOk s.nodes → LevelsOk (moveNode nodeId newParentId eid s).nodes) := by
  have hE0 : ∀ e : GEdge, e ∈ s.edges.filter (fun e2 => e2.target != nodeId) →
      e ∈ s.edges ∧ e.target ≠ nodeId := by
    intro e he0
    rw [List.mem_filter] at he0
    exact ⟨he0.1, by simpa using he0.2⟩
  unfold moveNode
  dsimp only
  rw [show (saveStateSnapshot s).nodes = s.nodes from rfl,
    show (saveStateSnapshot s).edges = s.edges from rfl, hf1, hf2]
  dsimp only
  constructor
  · intro e he
    split at he
    · split at he
      · rcases List.mem_append.mp he with h1 | h2
        · exact Or.inl (hE0 e h1)
        · have he2 : e = { mkNewEdge eid newParentId nodeId with
              targetHandle := some "target" } := by simpa using h2
          subst he2
          exact Or.inr ⟨rfl, rfl⟩
      · exact Or.inl (hE0 e he)
    · exact Or.inl (hE0 e he)
  · intro hLev
    apply levelsOk_calculateLayout
    apply levelsOk_map
    intro u hu
    have hlev_u : 0 ≤ u.data.level ∧ u.data.level ≤ 2 := by
      obtain ⟨v, hv, rfl⟩ := List.mem_map.mp hu
      split
      · exact clamp02_bounds _
      · exact hLev v hv
    split <;> simpa using hlev_u

/-- One move whose arguments pass `canMoveNode` preserves the level bounds
and acyclicity. -/
theorem guardedMove_single {s : GraphState} {nodeId targetParentId eid : String}
    (hlev : LevelsOk s.nodes) (hacyc : Acyclic s.edges)
    (hg : canMoveNode s nodeId targetParentId = true) :
    LevelsOk (moveNode nodeId targetParentId eid s).nodes ∧
    Acyclic (moveNode nodeId targetParentId eid s).edges := by
  obtain ⟨⟨node, hf1⟩, ⟨tp, hf2⟩, hdesc, hne⟩ := canMoveNode_true_elim hg
  obtain ⟨hedges, hlevimp⟩ := @moveNode_spec s nodeId targetParentId eid node tp hf1 hf2
  refine ⟨hlevimp hlev, ?_⟩
  intro x hx
  have hmono : ∀ a b, estep (moveNode nodeId targetParentId eid s).edges a b →
      ((estep s.edges a b ∧ b ≠ nodeId) ∨ (a = targetParentId ∧ b = nodeId)) := by
    intro a b hab
    obtain ⟨e, he, hsrc, htgt⟩ := hab
    rcases hedges e he with ⟨he1, he2⟩ | ⟨hs2, ht2⟩
    · refine Or.inl ⟨⟨e, he1, hsrc, htgt⟩, ?_⟩
      rw [← htgt]
      exact he2
    · refine Or.inr ⟨?_, ?_⟩
      · rw [← hsrc]; exact hs2
      · rw [← htgt]; exact ht2
  have hacyc0 : ∀ z, ¬ Relation.TransGen
      (fun a b => estep s.edges a b ∧ b ≠ nodeId) z z := by
    intro z hz
    exact hacyc z (Relation.TransGen.mono (fun a b h => h.1) hz)
  have hnp : ¬ Relation.ReflTransGen
      (fun a b => estep s.edges a b ∧ b ≠ nodeId) nodeId targetParentId := by
    intro hr
    rcases (Relation.reflTransGen_iff_eq_or_transGen).mp hr with heq | htr
    · exact hne heq.symm
    · have htr2 : Relation.TransGen (estep s.edges) nodeId targetParentId :=
        Relation.TransGen.mono (fun a b h => h.1) htr
      exact hdesc ((mem_getDescendantIds_iff
        (acyclicFrom_of_acyclic hacyc nodeId)).mpr htr2)
  exact acyclic_union_single hacyc0 hne hnp x
    (Relation.TransGen.mono hmono hx)

/-- Apply a `moveNode` request only when `canMoveNode` accepts it; the third
component is the fresh `nanoid()` edge id. -/
def guardedMove (s : GraphState) (m : String × String × String) : GraphState :=
  if canMoveNode s m.1 m.2.1 then moveNode m.1 m.2.1 m.2.2 s else s

/-- C1: starting from any state whose node levels lie in [0,2] and whose edge
set is acyclic, any sequence of `moveNode` calls whose arguments each satisfy
`canMoveNode` keeps every node's level in [0,2] and never makes any node
reachable from itself along the edge set — the forest stays acyclic. -/
theorem C1_guarded_moves_preserve_forest (s : GraphState)
    (moves : List (String × String × String))
    (hlev : ∀ n ∈ s.nodes, 0 ≤ n.data.level ∧ n.data.level ≤ 2)
    (hacyc : ∀ x, ¬ Relation.TransGen (estep s.edges) x x) :
    (∀ n ∈ (moves.foldl guardedMove s).nodes,
      0 ≤ n.data.level ∧ n.data.level ≤ 2) ∧
    (∀ x, ¬ Relation.TransGen (estep (moves.foldl guardedMove s).edges) x x) := by
  induction moves generalizing s with
  | nil => exact ⟨hlev, hacyc⟩
  | cons m rest ih =>
    rw [List.foldl_cons]
    by_cases hg : canMoveNode s m.1 m.2.1 = true
    · obtain ⟨h1, h2⟩ := guardedMove_single hlev hacyc hg
      have hstep : guardedMove s m = moveNode m.1 m.2.1 m.2.2 s := by
        simp [guardedMove, hg]
      rw [hstep]
      exact ih _ h1 h2
    · have hstep : guardedMove s m = s := by
        simp [guardedMove, hg]
      rw [hstep]
      exact ih _ hlev hacyc

/-- Concrete witness for C1: one guarded move on the sample graph keeps all
levels in range. -/
theorem C1_guarded_moves_preserve_forest_witness :
    (List.foldl guardedMove demoState [("a", "b", "eX")]).nodes.all
      (fun n => decide (0 ≤ n.data.level) && decide (n.data.level ≤ 2)) = true := by
  rw [List.all_eq_true]
  intro n hn
  obtain ⟨h1, h2⟩ := (C1_guarded_moves_preserve_forest demoState [("a", "b", "eX")]
    (by decide) demoEdges_acyclic).1 n hn
  simp [h1, h2]

/-- A step of the layout traversal: an edge whose target names an existing
node (`positionSubtree` only recurses into children found in the node list). -/
def rstep (nodes : List TaskNode) (edges : List GEdge) (a b : String) : Prop :=
  estep edges a b ∧ ∃ w ∈ nodes, w.id = b

theorem rstep_of_mem_childrenOf {nodes : List TaskNode} {edges : List GEdge}
    {a : String} {c : TaskNode} (h : c ∈ childrenOf nodes edges a) :
    rstep nodes edges a c.id := by
  have hc : c ∈ nodes := by
    simp only [childrenOf, List.mem_filterMap] at h
    obtain ⟨i, _, hfind⟩ := h
    exact List.mem_of_find?_eq_some hfind
  exact ⟨mem_childrenOf_estep h, c, hc, rfl⟩

theorem mem_childrenOf_of_rstep {nodes : List TaskNode} {edges : List GEdge}
    {a b : String} (h : rstep nodes edges a b) :
    ∃ c ∈ childrenOf nodes edges a, c.id = b := by
  obtain ⟨hest, w, hw, hid⟩ := h
  have hbmem : b ∈ childIds edges a := mem_childIds_iff.mpr hest
  have hfind : (nodes.find? (fun n => n.id == b)).isSome := by
    rw [List.find?_isSome]
    exact ⟨w, hw, by simp [hid]⟩
  rcases hf : nodes.find? (fun n => n.id == b) with _ | c
  · rw [hf] at hfind; simp at hfind
  · refine ⟨c, ?_, ?_⟩
    · simp only [childrenOf, List.mem_filterMap]
      exact ⟨b, hbmem, hf⟩
    · have := List.find?_some hf
      simpa using this

theorem mem_sinsert {le : TaskNode → TaskNode → Bool} {a c : TaskNode} :
    ∀ {l : List TaskNode}, c ∈ sinsert le a l ↔ c = a ∨ c ∈ l := by
  intro l
  induction l with
  | nil => simp [sinsert]
  | cons b l ih =>
    rw [sinsert]
    split
    · simp only [List.mem_cons]
    · simp only [List.mem_cons, ih]
      tauto

theorem mem_stableSortBy {le : TaskNode → TaskNode → Bool} {c : TaskNode} :
    ∀ {l : List TaskNode}, c ∈ stableSortBy le l ↔ c ∈ l := by
  intro l
  induction l with
  | nil => simp [stableSortBy]
  | cons a l ih =>
    rw [stableSortBy, mem_sinsert]
    simp [ih]

theorem mem_sortBySlot {l : List TaskNode} {c : TaskNode} :
    c ∈ sortBySlot l ↔ c ∈ l := by
  rw [sortBySlot, mem_stableSortBy]

/-- Soundness of the traversal: every key added by `positionChildren` is
reachable from one of the processed children. -/
theorem positionChildren_sound (rec : String → ℚ → ℚ → PosMap → PosMap)
    (nodes : List TaskNode) (edges : List GEdge) (ls ns x : ℚ)
    (ih : ∀ (nid : String) (x2 cy2 : ℚ) (M : PosMap) (k : String),
      pmHas (rec nid x2 cy2 M) k = true →
      pmHas M k = true ∨ Relation.ReflTransGen (rstep nodes edges) nid k) :
    ∀ (cs : List TaskNode) (cy : ℚ) (M : PosMap) (k : String),
      pmHas (positionChildren rec nodes edges ls ns x cs cy M) k = true →
      pmHas M k = true ∨ ∃ c ∈ cs, Relation.ReflTransGen (rstep nodes edges) c.id k := by
  intro cs
  induction cs with
  | nil =>
    intro cy M k h
    exact Or.inl (by simpa [positionChildren] using h)
  | cons c rest ihc =>
    intro cy M k h
    rw [positionChildren] at h
    rcases ihc _ _ k h with h1 | ⟨c2, hc2, hr⟩
    · rcases ih c.id _ _ M k h1 with h2 | hr
      · exact Or.inl h2
      · exact Or.inr ⟨c, by simp, hr⟩
    · exact Or.inr ⟨c2, by simp [hc2], hr⟩

theorem positionSubtreeF_sound :
    ∀ (fuel : Nat) (nodes : List TaskNode) (edges : List GEdge) (ls ns : ℚ)
      (nid : String) (x cy : ℚ) (M : PosMap) (k : String),
      pmHas (positionSubtreeF fuel nodes edges ls ns nid x cy M) k = true →
      pmHas M k = true ∨ Relation.ReflTransGen (rstep nodes edges) nid k := by
  intro fuel
  induction fuel with
  | zero =>
    intro nodes edges ls ns nid x cy M k h
    exact Or.inl (by simpa [positionSubtreeF] using h)
  | succ fuel ih =>
    intro nodes edges ls ns nid x cy M k h
    rw [positionSubtreeF] at h
    split at h
    · exact Or.inl h
    · split at h
      · exact Or.inl h
      · dsimp only at h
        split at h
        · rcases List.any_eq_true.mp h with ⟨p, hp, hpk⟩
          rcases List.mem_cons.mp hp with rfl | hp2
          · exact Or.inr (by
              have : nid = k := by simpa using hpk
              rw [this])
          · exact Or.inl (List.any_eq_true.mpr ⟨p, hp2, hpk⟩)
        · rcases positionChildren_sound
              (fun nid2 x2 cy2 m2 =>
                positionSubtreeF fuel nodes edges ls ns nid2 x2 cy2 m2)
              nodes edges ls ns x
              (fun nid2 x2 cy2 M2 k2 => ih nodes edges ls ns nid2 x2 cy2 M2 k2)
              _ _ _ k h with
            h1 | ⟨c, hc, hr⟩
          · rcases List.any_eq_true.mp h1 with ⟨p, hp, hpk⟩
            rcases List.mem_cons.mp hp with rfl | hp2
            · exact Or.inr (by
                have : nid = k := by simpa using hpk
                rw [this])
            · exact Or.inl (List.any_eq_true.mpr ⟨p, hp2, hpk⟩)
          · have hstep : rstep nodes edges nid c.id :=
              rstep_of_mem_childrenOf (mem_sortBySlot.mp hc)
            exact Or.inr (Relation.ReflTransGen.head hstep hr)

theorem positionRoots_sound (nodes : List TaskNode) (edges : List GEdge)
    (config : LayoutConfig) (ls ns : ℚ) :
    ∀ (roots : List TaskNode) (cy : ℚ) (M : PosMap) (k : String),
      pmHas (positionRoots nodes edges config ls ns roots cy M) k = true →
      pmHas M k = true ∨ ∃ r ∈ roots, Relation.ReflTransGen (rstep nodes edges) r.id k := by
  intro roots
  induction roots with
  | nil =>
    intro cy M k h
    exact Or.inl (by simpa [positionRoots] using h)
  | cons root rest ih =>
    intro cy M k h
    rw [positionRoots] at h
    rcases ih _ _ k h with h1 | ⟨r, hr, hrr⟩
    · rcases positionSubtreeF_sound _ nodes edges ls ns root.id _ _ M k h1 with h2 | hr
      · exact Or.inl h2
      · exact Or.inr ⟨root, by simp, hr⟩
    · exact Or.inr ⟨r, by simp [hr], hrr⟩

/-- Every id positioned by the root pass is reachable (through existing
nodes) from a level-0 root of the node list. -/
theorem layoutPositioned_sound {nodes : List TaskNode} {edges : List GEdge}
    {config : LayoutConfig} {k : String}
    (h : pmHas (layoutPositioned nodes edges config) k = true) :
    ∃ root ∈ nodes, root.data.level = 0 ∧
      Relation.ReflTransGen (rstep nodes edges) root.id k := by
  unfold layoutPositioned at h
  rcases positionRoots_sound nodes edges config _ _ _ _ _ k h with h1 | ⟨r, hr, hrr⟩
  · simp [pmHas] at h1
  · rw [mem_sortBySlot, List.mem_filter] at hr
    exact ⟨r, hr.1, by simpa using hr.2, hrr⟩

/-- A positioned map closed under traversal steps except at the listed keys
(the ancestors currently being processed). -/
def MapClosedExcept (nodes : List TaskNode) (edges : List GEdge) (M : PosMap)
    (S : List String) : Prop :=
  ∀ a, pmHas M a = true → a ∉ S → ∀ b, rstep nodes edges a b → pmHas M b = true

theorem mapClosedExcept_of_cons {nodes : List TaskNode} {edges : List GEdge}
    {M : PosMap} {S : List String} {nid : String}
    (h : MapClosedExcept nodes edges M S) :
    MapClosedExcept nodes edges M (nid :: S) :=
  fun a ha haS b hb => h a ha (fun hmem => haS (List.mem_cons_of_mem _ hmem)) b hb

theorem pmHas_pmSet {M : PosMap} {nid : String} (v : TaskNode) {k : String} :
    pmHas (pmSet M nid v) k = true ↔ nid = k ∨ pmHas M k = true := by
  simp [pmHas, pmSet]

theorem positionChildren_complete (rec : String → ℚ → ℚ → PosMap → PosMap)
    (nodes : List TaskNode) (edges : List GEdge) (ls ns x : ℚ) (fuel : Nat)
    (ih : ∀ (nid : String) (x2 cy2 : ℚ) (M : PosMap) (S : List String),
      (∀ b l, RPath (rstep nodes edges) nid b l → l.length < fuel) →
      MapClosedExcept nodes edges M S →
      (∀ a, pmHas M a = true → pmHas (rec nid x2 cy2 M) a = true) ∧
      MapClosedExcept nodes edges (rec nid x2 cy2 M) S ∧
      ((∃ w ∈ nodes, w.id = nid) → pmHas (rec nid x2 cy2 M) nid = true)) :
    ∀ (cs : List TaskNode) (cy : ℚ) (M : PosMap) (S : List String),
      (∀ c ∈ cs, ∀ b l, RPath (rstep nodes edges) c.id b l → l.length < fuel) →
      (∀ c ∈ cs, ∃ w ∈ nodes, w.id = c.id) →
      MapClosedExcept nodes edges M S →
      (∀ a, pmHas M a = true →
        pmHas (positionChildren rec nodes edges ls ns x cs cy M) a = true) ∧
      MapClosedExcept nodes edges (positionChildren rec nodes edges ls ns x cs cy M) S ∧
      (∀ c ∈ cs, pmHas (positionChildren rec nodes edges ls ns x cs cy M) c.id = true) := by
  intro cs
  induction cs with
  | nil =>
    intro cy M S hfuelc hcs hM
    refine ⟨fun a ha => by simpa [positionChildren] using ha, ?_, by simp⟩
    simpa [positionChildren] using hM
  | cons c rest ihc =>
    intro cy M S hfuelc hcs hM
    obtain ⟨hmono1, hclosed1, hc1⟩ := ih c.id (x + ls) _ M S
      (hfuelc c (by simp)) hM
    obtain ⟨hmono2, hclosed2, hc2⟩ := ihc _ _ S
      (fun c2 hc2 => hfuelc c2 (by simp [hc2]))
      (fun c2 hc2 => hcs c2 (by simp [hc2])) hclosed1
    rw [positionChildren]
    refine ⟨fun a ha => hmono2 a (hmono1 a ha), hclosed2, ?_⟩
    intro c2 hmem
    rcases List.mem_cons.mp hmem with rfl | hmem2
    · exact hmono2 _ (hc1 (hcs c2 (by simp)))
    · exact hc2 c2 hmem2

theorem positionSubtreeF_complete :
    ∀ (fuel : Nat) (nodes : List TaskNode) (edges : List GEdge) (ls ns : ℚ)
      (nid : String) (x cy : ℚ) (M : PosMap) (S : List String),
      (∀ b l, RPath (rstep nodes edges) nid b l → l.length < fuel) →
      MapClosedExcept nodes edges M S →
      (∀ a, pmHas M a = true →
        pmHas (positionSubtreeF fuel nodes edges ls ns nid x cy M) a = true) ∧
      MapClosedExcept nodes edges (positionSubtreeF fuel nodes edges ls ns nid x cy M) S ∧
      ((∃ w ∈ nodes, w.id = nid) →
        pmHas (positionSubtreeF fuel nodes edges ls ns nid x cy M) nid = true) := by
  intro fuel
  induction fuel with
  | zero =>
    intro nodes edges ls ns nid x cy M S hfuel hM
    exact absurd (hfuel nid [] (RPath.nil nid)) (by simp)
  | succ fuel ih =>
    intro nodes edges ls ns nid x cy M S hfuel hM
    rw [positionSubtreeF]
    rcases hfind : nodes.find? (fun n => n.id == nid) with _ | node <;> rw [hfind] <;> dsimp only
    · refine ⟨fun a ha => ha, hM, ?_⟩
      rintro ⟨w, hw, hwid⟩
      have := List.find?_eq_none.mp hfind w hw
      simp [hwid] at this
    · by_cases hhas : pmHas M nid = true
      · rw [if_pos hhas]
        exact ⟨fun a ha => ha, hM, fun _ => hhas⟩
      · rw [if_neg hhas]
        set v := { node with position := (⟨x, cy⟩ : Pos) } with hv
        have hM1mono : ∀ a, pmHas M a = true → pmHas (pmSet M nid v) a = true :=
          fun a ha => (pmHas_pmSet v).mpr (Or.inr ha)
        have hM1has : pmHas (pmSet M nid v) nid = true :=
          (pmHas_pmSet v).mpr (Or.inl rfl)
        have hM1closed : MapClosedExcept nodes edges (pmSet M nid v) (nid :: S) := by
          intro a ha hnotS b hb
          rcases (pmHas_pmSet v).mp ha with rfl | haM
          · exact absurd (List.mem_cons_self _ _) hnotS
          · exact hM1mono b (hM a haM (fun h2 => hnotS (List.mem_cons_of_mem _ h2)) b hb)
        by_cases hemp : (childrenOf nodes edges nid).isEmpty
        · rw [if_pos hemp]
          refine ⟨hM1mono, ?_, fun _ => hM1has⟩
          intro a ha hnotS b hb
          rcases (pmHas_pmSet v).mp ha with rfl | haM
          · obtain ⟨c, hc, _⟩ := mem_childrenOf_of_rstep hb
            rw [List.isEmpty_iff] at hemp
            rw [hemp] at hc
            simp at hc
          · exact hM1mono b (hM a haM hnotS b hb)
        · rw [if_neg hemp]
          obtain ⟨hcmono, hcclosed, hcall⟩ :=
            positionChildren_complete
              (fun nid2 x2 cy2 m2 =>
                positionSubtreeF fuel nodes edges ls ns nid2 x2 cy2 m2)
              nodes edges ls ns x fuel
              (fun nid2 x2 cy2 M2 S2 => ih nodes edges ls ns nid2 x2 cy2 M2 S2)
              (sortBySlot (childrenOf nodes edges nid)) _ (pmSet M nid v) (nid :: S)
              (by
                intro c hc b l hp
                have hstep : rstep nodes edges nid c.id :=
                  rstep_of_mem_childrenOf (mem_sortBySlot.mp hc)
                have := hfuel b (c.id :: l) (RPath.cons hstep hp)
                simpa using this)
              (by
                intro c hc
                have hcmem : c ∈ nodes := by
                  have h2 := mem_sortBySlot.mp hc
                  simp only [childrenOf, List.mem_filterMap] at h2
                  obtain ⟨i, _, hfind2⟩ := h2
                  exact List.mem_of_find?_eq_some hfind2
                exact ⟨c, hcmem, rfl⟩)
              hM1closed
          refine ⟨fun a ha => hcmono a (hM1mono a ha), ?_, fun _ => hcmono _ hM1has⟩
          intro a ha hnotS b hb
          by_cases hanid : a = nid
          · subst hanid
            obtain ⟨c, hc, hcid⟩ := mem_childrenOf_of_rstep hb
            rw [← hcid]
            exact hcall c (mem_sortBySlot.mpr hc)
          · exact hcclosed a ha
              (by
                intro hmem
                rcases List.mem_cons.mp hmem with h2 | h2
                · exact hanid h2
                · exact hnotS h2) b hb

theorem rpath_mono {r r2 : String → String → Prop}
    (h : ∀ a b, r a b → r2 a b) {a b : String} {l : List String}
    (hp : RPath r a b l) : RPath r2 a b l := by
  induction hp with
  | nil _ => exact RPath.nil _
  | cons hab _ ih => exact RPath.cons (h _ _ hab) ih

theorem rstep_le_estep {nodes : List TaskNode} {edges : List GEdge} :
    ∀ a b, rstep nodes edges a b → estep edges a b := fun _ _ h => h.1

theorem rstep_path_bound {nodes : List TaskNode} {edges : List GEdge}
    (hacyc : Acyclic edges) (nid : String) :
    ∀ b l, RPath (rstep nodes edges) nid b l → l.length < edges.length + 1 := by
  intro b l hp
  have := rpath_length_le (acyclicFrom_of_acyclic hacyc nid)
    (rpath_mono rstep_le_estep hp)
  omega

theorem positionRoots_complete (nodes : List TaskNode) (edges : List GEdge)
    (config : LayoutConfig) (ls ns : ℚ) (hacyc : Acyclic edges) :
    ∀ (roots : List TaskNode) (cy : ℚ) (M : PosMap),
      MapClosedExcept nodes edges M [] →
      (∀ a, pmHas M a = true →
        pmHas (positionRoots nodes edges config ls ns roots cy M) a = true) ∧
      MapClosedExcept nodes edges
        (positionRoots nodes edges config ls ns roots cy M) [] ∧
      (∀ r ∈ roots, (∃ w ∈ nodes, w.id = r.id) →
        pmHas (positionRoots nodes edges config ls ns roots cy M) r.id = true) := by
  intro roots
  induction roots with
  | nil =>
    intro cy M hM
    exact ⟨fun a ha => by simpa [positionRoots] using ha,
      by simpa [positionRoots] using hM, by simp⟩
  | cons root rest ih =>
    intro cy M hM
    obtain ⟨hmono1, hclosed1, hr1⟩ :=
      positionSubtreeF_complete (edges.length + 1) nodes edges ls ns root.id _ _ M []
        (rstep_path_bound hacyc root.id) hM
    obtain ⟨hmono2, hclosed2, hr2⟩ := ih _ _ hclosed1
    rw [positionRoots]
    refine ⟨fun a ha => hmono2 a (hmono1 a ha), hclosed2, ?_⟩
    intro r hmem hex
    rcases List.mem_cons.mp hmem with rfl | hmem2
    · exact hmono2 _ (hr1 hex)
    · exact hr2 r hmem2 hex

/-- Completeness of the layout pass: the positioned map is closed under
traversal steps and contains every level-0 root of the node list. -/
theorem layoutPositioned_complete {nodes : List TaskNode} {edges : List GEdge}
    {config : LayoutConfig} (hacyc : Acyclic edges) :
    MapClosedExcept nodes edges (layoutPositioned nodes edges config) [] ∧
    (∀ root ∈ nodes, root.data.level = 0 →
      pmHas (layoutPositioned nodes edges config) root.id = true) := by
  unfold layoutPositioned
  obtain ⟨hmono, hclosed, hroots⟩ :=
    positionRoots_complete nodes edges config (config.levelSpacing.getD 340)
      (config.nodeSpacing.getD 20) hacyc
      (sortBySlot (nodes.filter (fun n => n.data.level == 0))) _ []
      (by intro a ha; simp [pmHas] at ha)
  refine ⟨hclosed, ?_⟩
  intro root hmem hlvl
  refine hroots root ?_ ⟨root, hmem, rfl⟩
  rw [mem_sortBySlot, List.mem_filter]
  exact ⟨hmem, by simp [hlvl]⟩

/-- Every node reachable (through existing nodes) from a level-0 root is
positioned by the layout pass. -/
theorem layoutPositioned_reach {nodes : List TaskNode} {edges : List GEdge}
    {config : LayoutConfig} (hacyc : Acyclic edges) :
    ∀ k : String, (∃ root ∈ nodes, root.data.level = 0 ∧
      Relation.ReflTransGen (rstep nodes edges) root.id k) →
      pmHas (layoutPositioned nodes edges config) k = true := by
  obtain ⟨hclosed, hroots⟩ := @layoutPositioned_complete nodes edges config hacyc
  rintro k ⟨root, hmem, hlvl, hrtg⟩
  induction hrtg with
  | refl => exact hroots root hmem hlvl
  | tail hab hbc ih => exact hclosed _ ih (by simp) _ hbc

theorem pmGet_eq_none_of_not_has {M : PosMap} {k : String}
    (h : ¬ pmHas M k = true) : pmGet M k = none := by
  unfold pmGet
  rw [List.find?_eq_none.mpr]
  · rfl
  · intro p hp hpk
    exact h (List.any_eq_true.mpr ⟨p, hp, hpk⟩)

/-- Reachability from a level-0 root along raw edges. -/
def RootReach (nodes : List TaskNode) (edges : List GEdge) (k : String) : Prop :=
  ∃ root ∈ nodes, root.data.level = 0 ∧
    Relation.ReflTransGen (estep edges) root.id k

theorem not_pmHas_of_not_rootReach {nodes : List TaskNode} {edges : List GEdge}
    {config : LayoutConfig} {k : String}
    (h : ¬ RootReach nodes edges k) :
    ¬ pmHas (layoutPositioned nodes edges config) k = true := by
  intro hk
  obtain ⟨root, hmem, hlvl, hrtg⟩ := layoutPositioned_sound hk
  exact h ⟨root, hmem, hlvl, Relation.ReflTransGen.mono rstep_le_estep hrtg⟩

/-- Invariant: every id collected in the preserved-subtree lists is reachable
from a level-0 root. -/
theorem addToFirstSubtree_inv {subs : List (String × List String)}
    {R : String → Prop} {src nid : String}
    (hsubs : ∀ p ∈ subs, ∀ x ∈ p.2, R x)
    (hnew : (∃ p ∈ subs, src ∈ p.2) → R nid) :
    ∀ p ∈ addToFirstSubtree subs src nid, ∀ x ∈ p.2, R x := by
  induction subs with
  | nil => simp [addToFirstSubtree]
  | cons q rest ih =>
    obtain ⟨r, ds⟩ := q
    rw [addToFirstSubtree]
    split
    · next hcont =>
      intro p hp x hx
      rcases List.mem_cons.mp hp with rfl | hp2
      · rcases List.mem_cons.mp hx with rfl | hx2
        · exact hnew ⟨(r, ds), by simp, by simpa using hcont⟩
        · exact hsubs (r, ds) (by simp) x hx2
      · exact hsubs p (by simp [hp2]) x hx
    · intro p hp x hx
      rcases List.mem_cons.mp hp with rfl | hp2
      · exact hsubs (r, ds) (by simp) x hx
      · exact ih (fun p2 hp2m => hsubs p2 (by simp [hp2m]))
          (fun ⟨p2, hp2m, hsrc⟩ => hnew ⟨p2, by simp [hp2m], hsrc⟩) p hp2 x hx

theorem firstSubtreeOwner_some_mem {subs : List (String × List String)}
    {nid r : String} (h : firstSubtreeOwner subs nid = some r) :
    ∃ p ∈ subs, nid ∈ p.2 := by
  induction subs with
  | nil => simp [firstSubtreeOwner] at h
  | cons q rest ih =>
    obtain ⟨r2, ds⟩ := q
    rw [firstSubtreeOwner] at h
    split at h
    · next hcont => exact ⟨(r2, ds), by simp, by simpa using hcont⟩
    · obtain ⟨p, hp, hx⟩ := ih h
      exact ⟨p, by simp [hp], hx⟩

theorem parentPreservePass_none {config : LayoutConfig} {edges : List GEdge}
    {l : List TaskNode} (h : config.preserveParentId = none) :
    parentPreservePass config edges l = l := by
  unfold parentPreservePass
  rw [if_neg]
  rw [h]
  simp [strTruthy]

/-- Every entry of the positioned map is keyed by its node's id and agrees
with the input node of that id on everything but position. -/
def MapKeyed (nodes : List TaskNode) (m : PosMap) : Prop :=
  ∀ p ∈ m, ∃ w ∈ nodes, w.id = p.1 ∧ stripPos p.2 = stripPos w

theorem positionChildren_keyed (rec : String → ℚ → ℚ → PosMap → PosMap)
    (nodes : List TaskNode) (edges : List GEdge) (ls ns x : ℚ)
    (ih : ∀ (nid : String) (x2 cy2 : ℚ) (M : PosMap), MapKeyed nodes M →
      MapKeyed nodes (rec nid x2 cy2 M)) :
    ∀ (cs : List TaskNode) (cy : ℚ) (M : PosMap), MapKeyed nodes M →
      MapKeyed nodes (positionChildren rec nodes edges ls ns x cs cy M) := by
  intro cs
  induction cs with
  | nil =>
    intro cy M hM
    simpa [positionChildren] using hM
  | cons c rest ihc =>
    intro cy M hM
    simp only [positionChildren]
    exact ihc _ _ (ih c.id _ _ M hM)

theorem positionSubtreeF_keyed :
    ∀ (fuel : Nat) (nodes : List TaskNode) (edges : List GEdge) (ls ns : ℚ)
      (nid : String) (x cy : ℚ) (M : PosMap), MapKeyed nodes M →
      MapKeyed nodes (positionSubtreeF fuel nodes edges ls ns nid x cy M) := by
  intro fuel
  induction fuel with
  | zero =>
    intro nodes edges ls ns nid x cy M hM
    simpa [positionSubtreeF] using hM
  | succ fuel ih =>
    intro nodes edges ls ns nid x cy M hM
    rw [positionSubtreeF]
    split
    · exact hM
    · next node hfind =>
      split
      · exact hM
      · have hmem : node ∈ nodes := List.mem_of_find?_eq_some hfind
        have hid : node.id = nid := by
          have := List.find?_some hfind
          simpa using this
        have hM1 : MapKeyed nodes
            (pmSet M nid { node with position := ⟨x, cy⟩ }) := by
          intro p hp
          rcases List.mem_cons.mp hp with rfl | hp
          · exact ⟨node, hmem, hid, rfl⟩
          · exact hM p hp
        dsimp only
        split
        · exact hM1
        · exact positionChildren_keyed
            (fun nid2 x2 cy2 m2 =>
              positionSubtreeF fuel nodes edges ls ns nid2 x2 cy2 m2)
            nodes edges ls ns x
            (fun nid2 x2 cy2 M2 => ih nodes edges ls ns nid2 x2 cy2 M2) _ _ _ hM1

theorem positionRoots_keyed (nodes : List TaskNode) (edges : List GEdge)
    (config : LayoutConfig) (ls ns : ℚ) :
    ∀ (roots : List TaskNode) (cy : ℚ) (M : PosMap), MapKeyed nodes M →
      MapKeyed nodes (positionRoots nodes edges config ls ns roots cy M) := by
  intro roots
  induction roots with
  | nil =>
    intro cy M hM
    simpa [positionRoots] using hM
  | cons root rest ih =>
    intro cy M hM
    simp only [positionRoots]
    exact ih _ _ (positionSubtreeF_keyed _ nodes edges ls ns root.id _ _ M hM)

theorem layoutPositioned_keyed (nodes : List TaskNode) (edges : List GEdge)
    (config : LayoutConfig) :
    MapKeyed nodes (layoutPositioned nodes edges config) := by
  unfold layoutPositioned
  exact positionRoots_keyed nodes edges config _ _ _ _ []
    (by intro p hp; simp at hp)

theorem rootReach_step {nodes : List TaskNode} {edges : List GEdge}
    {a b : String} (h : RootReach nodes edges a) (hab : estep edges a b) :
    RootReach nodes edges b := by
  obtain ⟨root, hmem, hlvl, hrtg⟩ := h
  exact ⟨root, hmem, hlvl, hrtg.tail hab⟩

theorem foldl_addToFirst_inv {nodes : List TaskNode} {edges : List GEdge} :
    ∀ (news : List TaskNode) (subs : List (String × List String)),
      (∀ p ∈ subs, ∀ x ∈ p.2, RootReach nodes edges x) →
      ∀ p ∈ news.foldl (fun subs newNode =>
          match edges.find? (fun e => e.target == newNode.id) with
          | some parentEdge => addToFirstSubtree subs parentEdge.source newNode.id
          | none => subs) subs,
        ∀ x ∈ p.2, RootReach nodes edges x := by
  intro news
  induction news with
  | nil =>
    intro subs h
    simpa using h
  | cons nn rest ih =>
    intro subs h
    rw [List.foldl_cons]
    apply ih
    rcases hf : edges.find? (fun e => e.target == nn.id) with _ | pe
    · simpa [hf] using h
    · rw [hf]
      refine addToFirstSubtree_inv h ?_
      rintro ⟨p, hp, hsrc⟩
      have hpe : pe ∈ edges := List.mem_of_find?_eq_some hf
      have htgt : pe.target = nn.id := by simpa using List.find?_some hf
      exact rootReach_step (h p hp pe.source hsrc) ⟨pe, hpe, rfl, htgt⟩

theorem rootNodes_mem_aux {nodes : List TaskNode} {r : TaskNode}
    (h : r ∈ sortBySlot (nodes.filter (fun n => n.data.level == 0))) :
    r ∈ nodes ∧ r.data.level = 0 := by
  rw [mem_sortBySlot, List.mem_filter] at h
  exact ⟨h.1, by simpa using h.2⟩

theorem subtree_base_inv {nodes : List TaskNode} {edges : List GEdge}
    (roots : List TaskNode)
    (hroots : ∀ r ∈ roots, r ∈ nodes ∧ r.data.level = 0)
    (offs : List (String × (ℚ × ℚ))) :
    ∀ p ∈ roots.filterMap (fun root =>
        if offs.any (fun q => q.1 == root.id) then
          some (root.id, root.id :: getDescendantIds edges root.id)
        else none),
      ∀ x ∈ p.2, RootReach nodes edges x := by
  intro p hp x hx
  rw [List.mem_filterMap] at hp
  obtain ⟨root, hroot, hsome⟩ := hp
  obtain ⟨hmem, hlvl⟩ := hroots root hroot
  split at hsome
  · have hp2 : p.2 = root.id :: getDescendantIds edges root.id := by
      have := Option.some.inj hsome
      rw [← this]
    rw [hp2] at hx
    rcases List.mem_cons.mp hx with rfl | hdesc
    · exact ⟨root, hmem, hlvl, Relation.ReflTransGen.refl⟩
    · exact ⟨root, hmem, hlvl,
        (getDescendantsF_sound hdesc).to_reflTransGen⟩
  · exact absurd hsome (by simp)

/-- With no `preserveParentId` override, a node unreachable from every
level-0 root keeps its list slot and its exact contents (position included)
through `calculateLayout`. -/
theorem calculateLayout_unreachable {nodes : List TaskNode}
    {edges : List GEdge} {config : LayoutConfig}
    (hpid : config.preserveParentId = none)
    (i : Nat) (hi : i < nodes.length)
    (hreach : ¬ RootReach nodes edges nodes[i].id) :
    (calculateLayout nodes edges config)[i]? = some nodes[i] := by
  have hfix : (pmGet (layoutPositioned nodes edges config) nodes[i].id).getD
      nodes[i] = nodes[i] := by
    rw [pmGet_eq_none_of_not_has (not_pmHas_of_not_rootReach hreach)]
    rfl
  unfold calculateLayout
  dsimp only
  split
  · exact List.getElem?_eq_getElem hi
  · repeat' split
    all_goals
      first
        | (rw [parentPreservePass_none hpid, List.getElem?_map,
            List.getElem?_eq_getElem hi, Option.map_some']
           exact congrArg some hfix)
        | (rw [parentPreservePass_none hpid, List.getElem?_map, List.getElem?_map,
            List.getElem?_eq_getElem hi, Option.map_some', Option.map_some']
           refine congrArg some ?_
           simp only [hfix]
           split
           · next r howner =>
             exfalso
             obtain ⟨p, hp, hmem2⟩ := firstSubtreeOwner_some_mem howner
             refine hreach (foldl_addToFirst_inv _ _
               (subtree_base_inv _ (fun r2 hr2 =>
                 rootNodes_mem_aux (List.mem_of_mem_filter hr2)) _)
               p hp nodes[i].id hmem2)
           · rfl)

theorem map_stripPos_of_pointwise {l : List TaskNode} {g : TaskNode → TaskNode}
    (h : ∀ n ∈ l, stripPos (g n) = stripPos n) :
    (l.map g).map stripPos = l.map stripPos := by
  rw [List.map_map]
  exact List.map_congr_left (fun n hn => h n hn)

theorem parentPreservePass_stripPos (config : LayoutConfig)
    (edges : List GEdge) (l : List TaskNode) :
    (parentPreservePass config edges l).map stripPos = l.map stripPos := by
  unfold parentPreservePass
  split
  · dsimp only
    split
    · apply map_stripPos_of_pointwise
      intro n _
      split <;> rfl
    · rfl
  · rfl

theorem layouted_stripPos {nodes : List TaskNode} {edges : List GEdge}
    {config : LayoutConfig} (hnodup : (nodes.map (fun n => n.id)).Nodup) :
    (nodes.map (fun n =>
      (pmGet (layoutPositioned nodes edges config) n.id).getD n)).map stripPos =
      nodes.map stripPos := by
  rw [List.map_map]
  apply List.map_congr_left
  intro n hn
  simp only [Function.comp]
  rcases hg : pmGet (layoutPositioned nodes edges config) n.id with _ | v
  · rfl
  · unfold pmGet at hg
    rcases hf : List.find? (fun p => p.1 == n.id)
        (layoutPositioned nodes edges config) with _ | q
    · rw [hf] at hg
      exact absurd hg (by simp)
    · rw [hf, Option.map_some'] at hg
      obtain ⟨w, hw, hwid, hstrip⟩ := layoutPositioned_keyed nodes edges config q
        (List.mem_of_find?_eq_some hf)
      have hq1 : q.1 = n.id := by simpa using List.find?_some hf
      have hwn : w = n := List.inj_on_of_nodup_map hnodup hw hn (by rw [hwid, hq1])
      have hv : q.2 = v := Option.some.inj hg
      show stripPos v = stripPos n
      rw [← hv, hstrip, hwn]

/-- With pairwise distinct node ids, `calculateLayout` changes nothing but
positions, position-wise: the position-erased output equals the
position-erased input, elementwise and in order. -/
theorem calculateLayout_stripPos {nodes : List TaskNode} {edges : List GEdge}
    {config : LayoutConfig} (hnodup : (nodes.map (fun n => n.id)).Nodup) :
    (calculateLayout nodes edges config).map stripPos = nodes.map stripPos := by
  have hlay := @layouted_stripPos nodes edges config hnodup
  unfold calculateLayout
  dsimp only
  split
  · rfl
  · repeat' split
    all_goals
      first
        | (rw [parentPreservePass_stripPos]; exact hlay)
        | (rw [parentPreservePass_stripPos,
            map_stripPos_of_pointwise (fun n _ => by split <;> rfl)]
           exact hlay)

/-- C5 (amended): for acyclic edge sets and node lists with distinct ids,
`calculateLayout` (i) assigns a fresh layout position to every node reachable
from a level-0 root through existing nodes — such nodes are in the positioned
map; (ii) when the config requests no `preserveParentId` override, every node
unreachable from any root is returned unchanged, previous position included;
and (iii) for every config, no field other than position is ever altered and
the node list keeps its length and order.  (The claim as stated fails for a
config whose `preserveParentId` names a node outside the root-reachable set
with a conflicting `originalNodes` position: the override pass translates
that unreachable node.) -/
theorem C5_layout_exactly_positions (nodes : List TaskNode)
    (edges : List GEdge) (config : LayoutConfig)
    (hacyc : Acyclic edges) (hnodup : (nodes.map (fun n => n.id)).Nodup) :
    (∀ n ∈ nodes, (∃ root ∈ nodes, root.data.level = 0 ∧
        Relation.ReflTransGen (rstep nodes edges) root.id n.id) →
      pmHas (layoutPositioned nodes edges config) n.id = true) ∧
    (config.preserveParentId = none →
      ∀ (i : Nat) (hi : i < nodes.length),
        (¬ ∃ root ∈ nodes, root.data.level = 0 ∧
          Relation.ReflTransGen (estep edges) root.id nodes[i].id) →
        (calculateLayout nodes edges config)[i]? = some nodes[i]) ∧
    (calculateLayout nodes edges config).map stripPos = nodes.map stripPos := by
  refine ⟨?_, ?_, calculateLayout_stripPos hnodup⟩
  · intro n _ hex
    exact layoutPositioned_reach hacyc n.id hex
  · intro hpid i hi hreach
    exact calculateLayout_unreachable hpid i hi hreach

/-- Concrete witness for C5: on the sample graph the layout changes only
positions. -/
theorem C5_layout_exactly_positions_witness :
    (calculateLayout demoNodes demoEdges {}).map stripPos =
      demoNodes.map stripPos :=
  (C5_layout_exactly_positions demoNodes demoEdges {} demoEdges_acyclic
    (by decide)).2.2

def cex5Nodes : List TaskNode := [mkN "r" 0 0 "R" 0 0, mkN "q" 1 0 "Q" 5 5]

/-- A config whose `preserveParentId` names the orphan node `q` and whose
`originalNodes` records a different position for it. -/
def cex5Config : LayoutConfig :=
  { preserveParentId := some "q", originalNodes := some [mkN "q" 1 0 "Q" 99 99] }

theorem not_transGen_estep_nil (a b : String) :
    ¬ Relation.TransGen (estep []) a b := by
  intro h
  induction h with
  | single h2 =>
    rcases h2 with ⟨e, he, _⟩
    exact absurd he (List.not_mem_nil e)
  | tail _ h2 _ =>
    rcases h2 with ⟨e, he, _⟩
    exact absurd he (List.not_mem_nil e)

attribute [local semireducible] Rat.add Rat.sub Rat.mul Rat.inv Rat.ofScientific in
/-- C5 counterexample: node `q` (input position (5,5)) is unreachable from
the only level-0 root, yet `calculateLayout` moves it to (99,99), because the
`preserveParentId` override translates `q` by the offset to its
`originalNodes` position. -/
theorem C5_layout_exactly_positions_counterexample :
    ((calculateLayout cex5Nodes [] cex5Config).find? (fun n => n.id == "q")).map
        (fun n => n.position) = some ⟨99, 99⟩ ∧
    (cex5Nodes.find? (fun n => n.id == "q")).map (fun n => n.position) = some ⟨5, 5⟩ ∧
    ¬ ∃ root ∈ cex5Nodes, root.data.level = 0 ∧
        Relation.ReflTransGen (estep ([] : List GEdge)) root.id "q" := by
  refine ⟨by decide, by decide, ?_⟩
  rintro ⟨root, hmem, hlvl, hrtg⟩
  rcases Relation.reflTransGen_iff_eq_or_transGen.mp hrtg with heq | htr
  · rcases List.mem_cons.mp hmem with rfl | hmem2
    · exact absurd heq (by decide)
    · rcases List.mem_cons.mp hmem2 with rfl | hmem3
      · exact absurd hlvl (by decide)
      · exact absurd hmem3 (List.not_mem_nil root)
  · exact not_transGen_estep_nil _ _ htr


def c6r (lr : String) (pr : Pos) : TaskNode :=
  { id := "r", ntype := "editableNode", position := pr,
    data := { label := lr, level := 0, slot := 0 } }

def c6a (la : String) (pa : Pos) : TaskNode :=
  { id := "a", ntype := "editableNode", position := pa,
    data := { label := la, level := 1, slot := 0 } }

def c6b (lb : String) (pb : Pos) : TaskNode :=
  { id := "b", ntype := "editableNode", position := pb,
    data := { label := lb, level := 1, slot := 1 } }

def c6Nodes (lr la lb : String) (pr pa pb : Pos) : List TaskNode :=
  [c6r lr pr, c6a la pa, c6b lb pb]

def c6Edges : List GEdge := [mkNewEdge "e1" "r" "a", mkNewEdge "e2" "r" "b"]

theorem c6_ownHeight_a {la : String} {pa : Pos} (hla : countLines la = 1) :
    ownHeight (c6a la pa) = 64 := by
  show qmax 60 ((countLines la : ℚ) * 24 + 40) = 64
  rw [hla]
  norm_num [qmax]

theorem c6_ownHeight_b {lb : String} {pb : Pos} (hlb : countLines lb = 1) :
    ownHeight (c6b lb pb) = 64 := by
  show qmax 60 ((countLines lb : ℚ) * 24 + 40) = 64
  rw [hlb]
  norm_num [qmax]

theorem c6_layout_eval (lr la lb : String) (pr pa pb : Pos)
    (hla : countLines la = 1) (hlb : countLines lb = 1) :
    calculateLayout (c6Nodes lr la lb pr pa pb) c6Edges {} =
      [{ c6r lr pr with position := ⟨0, 0⟩ },
       { c6a la pa with position := ⟨340, -42⟩ },
       { c6b lb pb with position := ⟨340, 42⟩ }] := by
  have estep : calculateLayout (c6Nodes lr la lb pr pa pb) c6Edges {} =
      [{ c6r lr pr with position :=
        ⟨0, -(0 + calculateSubtreeHeight (c6Nodes lr la lb pr pa pb) c6Edges 20 "r" +
            (((1 : ℕ) : ℚ) - 1) * 20 * 2) / 2 +
          calculateSubtreeHeight (c6Nodes lr la lb pr pa pb) c6Edges 20 "r" / 2⟩ },
       { c6a la pa with position :=
        ⟨0 + 340, -(0 + calculateSubtreeHeight (c6Nodes lr la lb pr pa pb) c6Edges 20 "r" +
            (((1 : ℕ) : ℚ) - 1) * 20 * 2) / 2 +
          calculateSubtreeHeight (c6Nodes lr la lb pr pa pb) c6Edges 20 "r" / 2 -
          (0 + ownHeight (c6a la pa) + ownHeight (c6b lb pb) +
            (((2 : ℕ) : ℚ) - 1) * 20) / 2 + ownHeight (c6a la pa) / 2⟩ },
       { c6b lb pb with position :=
        ⟨0 + 340, -(0 + calculateSubtreeHeight (c6Nodes lr la lb pr pa pb) c6Edges 20 "r" +
            (((1 : ℕ) : ℚ) - 1) * 20 * 2) / 2 +
          calculateSubtreeHeight (c6Nodes lr la lb pr pa pb) c6Edges 20 "r" / 2 -
          (0 + ownHeight (c6a la pa) + ownHeight (c6b lb pb) +
            (((2 : ℕ) : ℚ) - 1) * 20) / 2 + ownHeight (c6a la pa) + 20 +
          ownHeight (c6b lb pb) / 2⟩ }] := rfl
  rw [estep, c6_ownHeight_a hla, c6_ownHeight_b hlb]
  simp only [List.cons.injEq, TaskNode.mk.injEq, Pos.mk.injEq, and_true, true_and]
  and_intros <;> first
    | rfl
    | (push_cast
       ring)


/-- C6: for the one-root/two-leaf-children scenario with single-line child
labels and default options, the layout places both children at
`root.x + 340` (the default `levelSpacing`) and at `y` coordinates symmetric
about the root.  Input positions and the root label are arbitrary. -/
theorem C6_two_leaf_children_symmetric (lr la lb : String) (pr pa pb : Pos)
    (hla : countLines la = 1) (hlb : countLines lb = 1) :
    ∃ rn an bn : TaskNode,
      (calculateLayout (c6Nodes lr la lb pr pa pb) c6Edges {}).find?
          (fun n => n.id == "r") = some rn ∧
      (calculateLayout (c6Nodes lr la lb pr pa pb) c6Edges {}).find?
          (fun n => n.id == "a") = some an ∧
      (calculateLayout (c6Nodes lr la lb pr pa pb) c6Edges {}).find?
          (fun n => n.id == "b") = some bn ∧
      an.position.x = rn.position.x + 340 ∧
      bn.position.x = rn.position.x + 340 ∧
      rn.position.y - an.position.y = bn.position.y - rn.position.y ∧
      an.position.y ≠ bn.position.y := by
  refine ⟨{ c6r lr pr with position := ⟨0, 0⟩ },
    { c6a la pa with position := ⟨340, -42⟩ },
    { c6b lb pb with position := ⟨340, 42⟩ }, ?_, ?_, ?_, ?_, ?_, ?_, ?_⟩
  · rw [c6_layout_eval lr la lb pr pa pb hla hlb]
    rfl
  · rw [c6_layout_eval lr la lb pr pa pb hla hlb]
    rfl
  · rw [c6_layout_eval lr la lb pr pa pb hla hlb]
    rfl
  · show (340 : ℚ) = 0 + 340
    norm_num
  · show (340 : ℚ) = 0 + 340
    norm_num
  · show (0 : ℚ) - (-42) = 42 - 0
    norm_num
  · show (-42 : ℚ) ≠ 42
    norm_num

/-- Witness for C6 at concrete labels and positions. -/
theorem C6_two_leaf_children_symmetric_witness :
    countLines "A" = 1 ∧ countLines "B" = 1 ∧
    (∃ rn an bn : TaskNode,
      (calculateLayout (c6Nodes "Root" "A" "B" ⟨1, 2⟩ ⟨3, 4⟩ ⟨5, 6⟩) c6Edges {}).find?
          (fun n => n.id == "r") = some rn ∧
      (calculateLayout (c6Nodes "Root" "A" "B" ⟨1, 2⟩ ⟨3, 4⟩ ⟨5, 6⟩) c6Edges {}).find?
          (fun n => n.id == "a") = some an ∧
      (calculateLayout (c6Nodes "Root" "A" "B" ⟨1, 2⟩ ⟨3, 4⟩ ⟨5, 6⟩) c6Edges {}).find?
          (fun n => n.id == "b") = some bn ∧
      an.position.x = rn.position.x + 340 ∧
      bn.position.x = rn.position.x + 340 ∧
      rn.position.y - an.position.y = bn.position.y - rn.position.y ∧
      an.position.y ≠ bn.position.y) :=
  ⟨by decide, by decide,
    C6_two_leaf_children_symmetric "Root" "A" "B" ⟨1, 2⟩ ⟨3, 4⟩ ⟨5, 6⟩
      (by decide) (by decide)⟩
